import Mathlib

/-!
Verification of `src/algorithm/introAlgorithm/c++-implmentation/chap.2/merge_sort.cc`.

The C++ file implements the CLRS chapter-2 merge sort on `vector<int>` in two
variants: a sentinel-based `merge` (with `INT_MAX` appended to the two scratch
buffers) driving `merge_sort`, and a `merge_lazy` (based on `std::merge` into a
temporary buffer) driving `merge_sort_lazy`, plus a `main` that demonstrates both.

Shallow embedding conventions:
* `vector<int>` is modelled as `List Int` (C++ `int` arithmetic is never
  performed by the program, only comparisons and copies, so unbounded `Int`
  with `INT_MAX = 2147483647` is exact).
* `size_t` index values are modelled as `Nat`.  Inside the functions, every
  arithmetic operation on indices that the verified claims can reach is
  performed on values where `size_t` and `Nat` arithmetic agree (a
  `vector<int>` holds fewer than 2^62 elements, so sums of in-bounds indices
  never wrap).  The one realizable wrap, `A.size() - 1` for an empty vector at
  the `sort(S, 0, len(S)-1)` calling convention, is modelled exactly by
  `sizeSub1` (subtraction modulo 2^64).
* Out-of-bounds `vector` accesses are undefined behaviour in C++; the
  embedding makes every element read and write fallible, so each function
  returns `Option` and an out-of-bounds access yields `none`.
* The element type and comparison are generalized (`le`) solely so that the
  stability of the algorithm can be expressed by running the same algorithm on
  position-tagged elements compared by key; every claim about the program
  itself is stated at the `Int` instantiation, which mirrors the source
  line by line.
-/

namespace MS

/-- The value `INT_MAX` from `<climits>` on the targeted 32-bit-`int` platform. -/
def INT_MAX : Int := 2147483647

section GenericDefs

variable {α : Type} (le : α → α → Prop) [DecidableRel le]

/-- A single store `A[k] = v`.  In C++ an out-of-bounds vector write is
undefined behaviour; here it is `none`. -/
def wr (A : List α) (k : Nat) (v : α) : Option (List α) :=
  if k < A.length then some (A.set k v) else none

/-- The contiguous sub-list `A[a..b)` (`b` exclusive). -/
def slice (A : List α) (a b : Nat) : List α :=
  (A.drop a).take (b - a)

/-- The copy loop `for (i = 0; i < n; i++) dst[i] = A[s+i];` viewed as the
list of values read; `none` as soon as a read is out of bounds. -/
def readRange (A : List α) (s : Nat) : Nat → Option (List α)
  | 0 => some []
  | n + 1 =>
    match A[s]? with
    | none => none
    | some x =>
      match readRange A (s + 1) n with
      | none => none
      | some xs => some (x :: xs)

/-- Successive stores `A[k] = vs[0]; A[k+1] = vs[1]; ...` (all in bounds in
every use below). -/
def writeRange (A : List α) (k : Nat) : List α → List α
  | [] => A
  | v :: vs => writeRange (A.set k v) (k + 1) vs

/-- Fuel-indexed functional merge of two lists; the fuel only serves to make
the recursion structural (hence executable by the kernel) and is irrelevant
as soon as it is at least the total length (`mergeListsF_fuel`). -/
def mergeListsF : Nat → List α → List α → List α
  | 0, _, ys => ys
  | _ + 1, [], ys => ys
  | _ + 1, x :: xs, [] => x :: xs
  | f + 1, x :: xs, y :: ys =>
    if le x y then x :: mergeListsF f xs (y :: ys) else y :: mergeListsF f (x :: xs) ys

/-- The standard functional merge of two lists, taking from the left list on
ties; this is both the specification of the sentinel scan and the behaviour
of `std::merge`. -/
def mergeLists (xs ys : List α) : List α :=
  mergeListsF le (xs.length + ys.length) xs ys

/-- The merge scan loop `for (k = p; k <= r; k++)` of the
source `merge`, with `cnt` remaining iterations.  Returns the updated
sequence together with the final cursors `i`, `j`; `none` on any
out-of-bounds buffer read or sequence write. -/
def mergeScan (L R : List α) : Nat → Nat → Nat → Nat → List α → Option (List α × Nat × Nat)
  | 0, i, j, _, A => some (A, i, j)
  | c + 1, i, j, k, A =>
    match L[i]?, R[j]? with
    | some li, some rj =>
      if le li rj then
        match wr A k li with
        | some A2 => mergeScan L R c (i + 1) j (k + 1) A2
        | none => none
      else
        match wr A k rj with
        | some A2 => mergeScan L R c i (j + 1) (k + 1) A2
        | none => none
    | _, _ => none

/-- The source `merge(A, p, q, r)`: copy `A[p..q]` and `A[q+1..r]` into scratch
buffers, append the sentinel, then run the scan for `r - p + 1` iterations.
`sent` is `INT_MAX` at the `Int` instantiation.  (`q - p + 1` and `r - q`
are the `size_t` expressions `n1`, `n2`; every call reached by a claim has
`p ≤ q ≤ r`, where `Nat` and `size_t` subtraction agree.) -/
def mergeG (sent : α) (A : List α) (p q r : Nat) : Option (List α) :=
  match readRange A p (q - p + 1) with
  | none => none
  | some Lm =>
    match readRange A (q + 1) (r - q) with
    | none => none
    | some Rm =>
      match mergeScan le (Lm ++ [sent]) (Rm ++ [sent]) (r + 1 - p) 0 0 p A with
      | none => none
      | some x => some x.1

/-- The source `merge_lazy(A, p, q, r)`: `std::merge` of the adjacent sorted
ranges `[p, q+1)` and `[q+1, r+1)` into a fresh buffer `B`, copied back over
`A[p..r]`.  The iterator preconditions of `std::merge` (`p ≤ q+1 ≤ r+1 ≤
A.size()`) are undefined behaviour when violated, modelled as `none`. -/
def merge_lazyG (A : List α) (p q r : Nat) : Option (List α) :=
  if p ≤ q + 1 ∧ q ≤ r ∧ r < A.length then
    some (A.take p ++ mergeLists le (slice A p (q + 1)) (slice A (q + 1) (r + 1)) ++ A.drop (r + 1))
  else none

/-- The shared recursion scheme of `merge_sort` and `merge_sort_lazy`:
`if (p < r) { q = (p+r)/2; sort(A,p,q); sort(A,q+1,r); f(A,p,q,r); }`,
parametrized by the merge routine `f`.  Termination: when `p < r` the split
point `q = (p+r)/2` satisfies `p ≤ q < r`, so both recursive ranges are
strictly shorter. -/
def sortWith (f : List α → Nat → Nat → Nat → Option (List α)) (A : List α) (p r : Nat) :
    Option (List α) :=
  if _h : p < r then
    match sortWith f A p ((p + r) / 2) with
    | none => none
    | some A1 =>
      match sortWith f A1 ((p + r) / 2 + 1) r with
      | none => none
      | some A2 => f A2 p ((p + r) / 2) r
  else some A
termination_by r - p
decreasing_by
  · omega
  · omega

end GenericDefs

/-- The source `merge` on `vector<int>`, with sentinel `INT_MAX`. -/
def merge (A : List Int) (p q r : Nat) : Option (List Int) :=
  mergeG (· ≤ ·) INT_MAX A p q r

/-- The source `merge_sort`. -/
def merge_sort (A : List Int) (p r : Nat) : Option (List Int) :=
  sortWith merge A p r

/-- The source `merge_lazy` on `vector<int>`. -/
def merge_lazy (A : List Int) (p q r : Nat) : Option (List Int) :=
  merge_lazyG (· ≤ ·) A p q r

/-- The source `merge_sort_lazy`. -/
def merge_sort_lazy (A : List Int) (p r : Nat) : Option (List Int) :=
  sortWith merge_lazy A p r

/-- Subtraction `n - 1` computed in `size_t`, i.e. modulo `2^64`.  For `n = 0`
(the empty vector) this is `2^64 - 1`. -/
def sizeSub1 (n : Nat) : Nat :=
  (n + (2 ^ 64 - 1)) % 2 ^ 64

/-- The calling convention `merge_sort(S, 0, S.size() - 1)` of the spec,
with `S.size() - 1` computed in `size_t`. -/
def sortEntry (S : List Int) : Option (List Int) :=
  merge_sort S 0 (sizeSub1 S.length)

/-- The calling convention `merge_sort_lazy(S, 0, S.size() - 1)`. -/
def sortEntryLazy (S : List Int) : Option (List Int) :=
  merge_sort_lazy S 0 (sizeSub1 S.length)

/-- One output line of `main`: each element is printed followed by one space
character, and the line ends with `endl`. -/
def render (A : List Int) : String :=
  String.join (A.map (fun i => toString i ++ " ")) ++ "\n"

/-- The source `main`: merge the fixed sample `B` at `(0, 2, 6)`, print it;
sort the fixed sample `A` with `merge_sort_lazy`, print it; return 0.
Result: the full standard output paired with the exit code. -/
def main : Option (String × Int) :=
  match merge [1, 3, 5, 2, 4, 6, 8] 0 2 6 with
  | none => none
  | some B =>
    match merge_sort_lazy [31, 41, 59, 26, 42, 58] 0 5 with
    | none => none
    | some A => some (render B ++ render A, 0)

/-- Key-only comparison on position-tagged elements: the comparison the C++
`<=` on `int` induces when each element carries its original index. -/
def leT (a b : Int × Nat) : Prop :=
  a.1 ≤ b.1

instance leT_dec : DecidableRel leT :=
  fun a b => Int.decLe a.1 b.1

/-- The sentinel for the tagged run of the algorithm. -/
def sentT : Int × Nat := (INT_MAX, 0)

/-- The source `merge`, run on position-tagged elements compared by key. -/
def mergeT (A : List (Int × Nat)) (p q r : Nat) : Option (List (Int × Nat)) :=
  mergeG leT sentT A p q r

/-- The source `merge_sort`, run on position-tagged elements compared by key. -/
def sortT (A : List (Int × Nat)) (p r : Nat) : Option (List (Int × Nat)) :=
  sortWith mergeT A p r

/-- Tag every element of `A` with its position: `[a0, a1, ...]` becomes
`[(a0, 0), (a1, 1), ...]`. -/
def tagged (A : List Int) : List (Int × Nat) :=
  A.enum.map (fun ia => (ia.2, ia.1))

section MergeListsLemmas

variable {α : Type} (le : α → α → Prop) [DecidableRel le]

lemma mergeListsF_nil (f : Nat) (ys : List α) : mergeListsF le f [] ys = ys := by
  cases f <;> rfl

lemma mergeListsF_fuel :
    ∀ (f g : Nat) (xs ys : List α), xs.length + ys.length ≤ f → xs.length + ys.length ≤ g →
      mergeListsF le f xs ys = mergeListsF le g xs ys := by
  intro f
  induction f with
  | zero =>
    intro g xs ys hf _
    have hx : xs = [] := by cases xs <;> simp_all
    subst hx
    rw [mergeListsF_nil, mergeListsF_nil]
  | succ f ih =>
    intro g xs ys hf hg
    cases xs with
    | nil => rw [mergeListsF_nil, mergeListsF_nil]
    | cons x xs =>
      cases ys with
      | nil =>
        cases g with
        | zero => simp at hg
        | succ g => rfl
      | cons y ys =>
        cases g with
        | zero => simp at hg
        | succ g =>
          show (if le x y then x :: mergeListsF le f xs (y :: ys)
                else y :: mergeListsF le f (x :: xs) ys) =
               (if le x y then x :: mergeListsF le g xs (y :: ys)
                else y :: mergeListsF le g (x :: xs) ys)
          simp only [List.length_cons] at hf hg
          rw [ih g xs (y :: ys) (by simp only [List.length_cons]; omega) (by simp only [List.length_cons]; omega),
            ih g (x :: xs) ys (by simp only [List.length_cons]; omega) (by simp only [List.length_cons]; omega)]

lemma mergeLists_nil (ys : List α) : mergeLists le [] ys = ys := by
  rw [mergeLists, mergeListsF_nil]

lemma mergeLists_nil_right (x : α) (xs : List α) : mergeLists le (x :: xs) [] = x :: xs := rfl

lemma mergeLists_cons (x y : α) (xs ys : List α) :
    mergeLists le (x :: xs) (y :: ys) =
      if le x y then x :: mergeLists le xs (y :: ys) else y :: mergeLists le (x :: xs) ys := by
  show (if le x y then x :: mergeListsF le ((x :: xs).length + ys.length) xs (y :: ys)
        else y :: mergeListsF le ((x :: xs).length + ys.length) (x :: xs) ys) = _
  rw [mergeLists, mergeLists,
    mergeListsF_fuel le ((x :: xs).length + ys.length) (xs.length + (y :: ys).length) xs (y :: ys)
      (by simp only [List.length_cons]; omega) (by simp only [List.length_cons]; omega),
    mergeListsF_fuel le ((x :: xs).length + ys.length) ((x :: xs).length + ys.length) (x :: xs) ys
      (by simp only [List.length_cons]; omega) (by simp only [List.length_cons]; omega)]

end MergeListsLemmas

section MergeListsPerm

variable {α : Type} (le : α → α → Prop) [DecidableRel le]

lemma mergeLists_perm : ∀ xs ys : List α, (mergeLists le xs ys).Perm (xs ++ ys) := by
  intro xs
  induction xs with
  | nil =>
    intro ys
    rw [mergeLists_nil]
    simp
  | cons x xs ihx =>
    intro ys
    induction ys with
    | nil => rw [mergeLists_nil_right]; simp
    | cons y ys ihy =>
      rw [mergeLists_cons]
      by_cases hxy : le x y
      · rw [if_pos hxy]
        exact (ihx (y :: ys)).cons x
      · rw [if_neg hxy]
        exact (ihy.cons y).trans (@List.perm_middle α y (x :: xs) ys).symm

lemma mergeLists_length (xs ys : List α) :
    (mergeLists le xs ys).length = xs.length + ys.length := by
  have h := (mergeLists_perm le xs ys).length_eq
  simp at h
  exact h

lemma mem_mergeLists {x : α} {xs ys : List α} :
    x ∈ mergeLists le xs ys ↔ x ∈ xs ∨ x ∈ ys := by
  rw [(mergeLists_perm le xs ys).mem_iff]
  simp

lemma mergeLists_sorted (htot : ∀ a b : α, le a b ∨ le b a)
    (htrans : ∀ a b c : α, le a b → le b c → le a c) :
    ∀ xs ys : List α, xs.Pairwise le → ys.Pairwise le →
      (mergeLists le xs ys).Pairwise le := by
  intro xs
  induction xs with
  | nil =>
    intro ys _ hy
    rw [mergeLists_nil]
    exact hy
  | cons x xs ihx =>
    intro ys
    induction ys with
    | nil =>
      intro hx _
      rw [mergeLists_nil_right]
      exact hx
    | cons y ys ihy =>
      intro hx hy
      rw [mergeLists_cons]
      rw [List.pairwise_cons] at hx hy
      by_cases hxy : le x y
      · rw [if_pos hxy]
        rw [List.pairwise_cons]
        constructor
        · intro b hb
          rw [mem_mergeLists] at hb
          rcases hb with hb | hb
          · exact hx.1 b hb
          · rcases List.mem_cons.mp hb with hb | hb
            · exact hb ▸ hxy
            · exact htrans x y b hxy (hy.1 b hb)
        · exact ihx (y :: ys) hx.2 (List.pairwise_cons.mpr hy)
      · rw [if_neg hxy]
        have hyx : le y x := (htot x y).resolve_left hxy
        rw [List.pairwise_cons]
        constructor
        · intro b hb
          rw [mem_mergeLists] at hb
          rcases hb with hb | hb
          · rcases List.mem_cons.mp hb with hb | hb
            · exact hb ▸ hyx
            · exact htrans y x b hyx (hx.1 b hb)
          · exact hy.1 b hb
        · exact ihy (List.pairwise_cons.mpr hx) hy.2

end MergeListsPerm

section SliceLemmas

variable {α : Type}

lemma slice_eq_drop_take (A : List α) (a b : Nat) :
    slice A a b = (A.take b).drop a := by
  rcases le_or_lt a b with h | h
  · have h1 : a + (b - a) = b := by omega
    rw [slice, List.take_drop, h1]
  · rw [slice]
    have h1 : b - a = 0 := by omega
    rw [h1, List.take_zero]
    have h2 : (A.take b).length ≤ a := by
      have := List.length_take_le b A
      omega
    rw [List.drop_eq_nil_iff.mpr h2]

lemma length_slice (A : List α) (a b : Nat) (hab : a ≤ b) (hb : b ≤ A.length) :
    (slice A a b).length = b - a := by
  rw [slice, List.length_take, List.length_drop]
  omega

lemma slice_append_slice (A : List α) (a b c : Nat) (hab : a ≤ b) (hbc : b ≤ c) :
    slice A a b ++ slice A b c = slice A a c := by
  rw [slice, slice, slice]
  have h1 : c - a = (b - a) + (c - b) := by omega
  rw [h1, List.take_add]
  congr 2
  rw [List.drop_drop]
  congr 1
  omega

lemma mem_of_mem_slice {x : α} {A : List α} {a b : Nat} (h : x ∈ slice A a b) : x ∈ A := by
  rw [slice] at h
  exact List.mem_of_mem_drop (List.mem_of_mem_take h)

lemma decomp_slice (A : List α) (a b : Nat) (hab : a ≤ b) :
    A = A.take a ++ slice A a b ++ A.drop b := by
  rw [slice, List.append_assoc]
  have h1 : A.drop b = (A.drop a).drop (b - a) := by
    rw [List.drop_drop]
    congr 1
    omega
  rw [h1, List.take_append_drop, List.take_append_drop]

lemma slice_congr_take {A B : List α} {a b : Nat} (h : A.take b = B.take b) :
    slice A a b = slice B a b := by
  rw [slice_eq_drop_take, slice_eq_drop_take, h]

lemma slice_congr_drop {A B : List α} {a a2 b : Nat} (h : A.drop a = B.drop a)
    (ha : a ≤ a2) : slice A a2 b = slice B a2 b := by
  have h2 : A.drop a2 = B.drop a2 := by
    have hA : A.drop a2 = (A.drop a).drop (a2 - a) := by
      rw [List.drop_drop]; congr 1; omega
    have hB : B.drop a2 = (B.drop a).drop (a2 - a) := by
      rw [List.drop_drop]; congr 1; omega
    rw [hA, hB, h]
  rw [slice, slice, h2]

lemma glue_spec (A M : List α) (p r : Nat) (hp : p ≤ r + 1) (hr : r < A.length)
    (hM : M.length = r + 1 - p) :
    let B := A.take p ++ M ++ A.drop (r + 1)
    B.length = A.length ∧ B.take p = A.take p ∧ B.drop (r + 1) = A.drop (r + 1) ∧
      slice B p (r + 1) = M := by
  intro B
  have hlp : (A.take p).length = p := by
    rw [List.length_take]
    omega
  have hlpm : (A.take p ++ M).length = r + 1 := by
    rw [List.length_append, hlp, hM]
    omega
  refine ⟨?_, ?_, ?_, ?_⟩
  · show (A.take p ++ M ++ A.drop (r + 1)).length = A.length
    rw [List.length_append, List.length_append, hlp, hM, List.length_drop]
    omega
  · show (A.take p ++ M ++ A.drop (r + 1)).take p = A.take p
    rw [List.append_assoc, List.take_append_eq_append_take, hlp]
    simp
  · show (A.take p ++ M ++ A.drop (r + 1)).drop (r + 1) = A.drop (r + 1)
    exact List.drop_left' hlpm
  · show slice (A.take p ++ M ++ A.drop (r + 1)) p (r + 1) = M
    rw [slice]
    rw [List.append_assoc, List.drop_left' hlp, List.take_append_eq_append_take, hM,
      Nat.sub_self]
    simp [← hM]

end SliceLemmas

section ScanLemmas

variable {α : Type} (le : α → α → Prop) [DecidableRel le]

lemma mergeLists_right (xs : List α) : mergeLists le xs [] = xs := by
  cases xs with
  | nil => exact mergeLists_nil le []
  | cons x xs => rfl

lemma head_of_drop {L : List α} {i : Nat} {z : α} {t : List α} (h : L.drop i = z :: t) :
    L[i]? = some z := by
  have h0 : (L.drop i)[0]? = some z := by rw [h]; simp
  rw [List.getElem?_drop] at h0
  simpa using h0

lemma drop_succ_of_drop {L : List α} {i : Nat} {z : α} {t : List α} (h : L.drop i = z :: t) :
    L.drop (i + 1) = t := by
  have h0 : (L.drop i).drop 1 = L.drop (i + 1) := by
    rw [List.drop_drop]
  rw [← h0, h]
  rfl

lemma readRange_eq : ∀ (n : Nat) (A : List α) (s : Nat), s + n ≤ A.length →
    readRange A s n = some (slice A s (s + n)) := by
  intro n
  induction n with
  | zero =>
    intro A s _
    simp [readRange, slice]
  | succ n ih =>
    intro A s h
    have hs : s < A.length := by omega
    have hrec := ih A (s + 1) (by omega)
    rw [readRange, List.getElem?_eq_getElem hs, hrec]
    have h1 : slice A s (s + (n + 1)) = A[s] :: slice A (s + 1) (s + 1 + n) := by
      have e1 : s + (n + 1) - s = n + 1 := by omega
      have e2 : s + 1 + n - (s + 1) = n := by omega
      rw [slice, slice, e1, e2, List.drop_eq_getElem_cons hs, List.take_succ_cons]
    rw [h1]

lemma readRange_none : ∀ (n : Nat) (A : List α) (s : Nat), A.length < s + n → 0 < n →
    readRange A s n = none := by
  intro n
  induction n with
  | zero =>
    intro A s _ h0
    exact absurd h0 (by omega)
  | succ n ih =>
    intro A s h _
    by_cases hs : s < A.length
    · rcases Nat.eq_zero_or_pos n with hn | hn
      · omega
      · rw [readRange, List.getElem?_eq_getElem hs, ih A (s + 1) (by omega) hn]
    · rw [readRange, List.getElem?_eq_none (by omega)]

lemma writeRange_eq : ∀ (vs A : List α) (k : Nat), k + vs.length ≤ A.length →
    writeRange A k vs = A.take k ++ vs ++ A.drop (k + vs.length) := by
  intro vs
  induction vs with
  | nil =>
    intro A k _
    simp [writeRange, List.take_append_drop]
  | cons v vs ih =>
    intro A k h
    simp only [List.length_cons] at h
    have hk : k < A.length := by omega
    have hrec := ih (A.set k v) (k + 1) (by simp; omega)
    rw [writeRange, hrec]
    have h1 : (A.set k v).take (k + 1) = A.take k ++ [v] := by
      rw [List.set_eq_take_cons_drop v hk, List.take_append_eq_append_take]
      have e1 : (A.take k).length = k := by rw [List.length_take]; omega
      rw [e1, List.take_take]
      have e2 : min (k + 1) k = k := by omega
      have e3 : k + 1 - k = 1 := by omega
      rw [e2, e3, List.take_succ_cons, List.take_zero]
    have h2 : (A.set k v).drop (k + 1 + vs.length) = A.drop (k + 1 + vs.length) := by
      rw [List.drop_set]
      rw [if_pos (by omega)]
    rw [h1, h2]
    have e4 : k + (v :: vs).length = k + 1 + vs.length := by simp; omega
    rw [e4]
    simp [List.append_assoc]

lemma wr_some {A : List α} {k : Nat} (h : k < A.length) (v : α) :
    wr A k v = some (A.set k v) := by
  rw [wr, if_pos h]

lemma mergeScan_spec (sent : α) :
    ∀ (cnt : Nat) (xs ys L R A : List α) (i j k : Nat),
      cnt = xs.length + ys.length →
      L.drop i = xs ++ [sent] → R.drop j = ys ++ [sent] →
      (∀ x ∈ xs, le x sent ∧ ¬ le sent x) →
      (∀ y ∈ ys, le y sent ∧ ¬ le sent y) →
      k + cnt ≤ A.length →
      mergeScan le L R cnt i j k A =
        some (writeRange A k (mergeLists le xs ys), i + xs.length, j + ys.length) := by
  intro cnt
  induction cnt with
  | zero =>
    intro xs ys L R A i j k hcnt _ _ _ _ _
    have hx : xs = [] := by
      cases xs
      · rfl
      · simp only [List.length_cons] at hcnt; omega
    have hy : ys = [] := by
      cases ys
      · rfl
      · simp only [List.length_cons] at hcnt; omega
    subst hx; subst hy
    simp [mergeScan, mergeLists_nil, writeRange]
  | succ c ih =>
    intro xs ys L R A i j k hcnt hL hR hxs hys hlen
    have hk : k < A.length := by omega
    cases xs with
    | nil =>
      cases ys with
      | nil => simp at hcnt
      | cons y ys =>
        simp only [List.nil_append] at hL
        have hLi : L[i]? = some sent := head_of_drop hL
        have hRj : R[j]? = some y := head_of_drop hR
        have hy := hys y (List.mem_cons_self y ys)
        rw [mergeScan, hLi, hRj]
        simp only [if_neg hy.2, wr_some hk y]
        have hrec := ih [] ys L R (A.set k y) i (j + 1) (k + 1)
          (by simp only [List.length_cons] at hcnt; simpa using hcnt)
          hL (drop_succ_of_drop hR) hxs
          (fun z hz => hys z (List.mem_cons_of_mem y hz))
          (by simp; omega)
        rw [hrec]
        rw [mergeLists_nil, mergeLists_nil]
        show _ = some (writeRange A k (y :: ys), i + 0, j + (ys.length + 1))
        have e1 : j + 1 + ys.length = j + (ys.length + 1) := by omega
        rw [writeRange, e1]
        simp
    | cons x xs =>
      have hLi : L[i]? = some x := head_of_drop hL
      have hx := hxs x (List.mem_cons_self x xs)
      cases ys with
      | nil =>
        simp only [List.nil_append] at hR
        have hRj : R[j]? = some sent := head_of_drop hR
        rw [mergeScan, hLi, hRj]
        simp only [if_pos hx.1, wr_some hk x]
        have hrec := ih xs [] L R (A.set k x) (i + 1) j (k + 1)
          (by simp only [List.length_cons, List.length_nil] at hcnt ⊢; omega)
          (drop_succ_of_drop hL) hR
          (fun z hz => hxs z (List.mem_cons_of_mem x hz)) hys
          (by simp; omega)
        rw [hrec]
        rw [mergeLists_right, mergeLists_right]
        show _ = some (writeRange A k (x :: xs), i + (xs.length + 1), j + 0)
        have e1 : i + 1 + xs.length = i + (xs.length + 1) := by omega
        rw [writeRange, e1]
        simp
      | cons y ys =>
        have hRj : R[j]? = some y := head_of_drop hR
        have hy := hys y (List.mem_cons_self y ys)
        rw [mergeScan, hLi, hRj, mergeLists_cons]
        by_cases hxy : le x y
        · simp only [if_pos hxy, wr_some hk x]
          have hrec := ih xs (y :: ys) L R (A.set k x) (i + 1) j (k + 1)
            (by simp only [List.length_cons] at hcnt ⊢; omega)
            (drop_succ_of_drop hL) hR
            (fun z hz => hxs z (List.mem_cons_of_mem x hz)) hys
            (by simp; omega)
          rw [hrec]
          show _ = some (writeRange A k (x :: mergeLists le xs (y :: ys)),
            i + (xs.length + 1), j + (ys.length + 1))
          have e1 : i + 1 + xs.length = i + (xs.length + 1) := by omega
          rw [writeRange, e1]
          simp
        · simp only [if_neg hxy, wr_some hk y]
          have hrec := ih (x :: xs) ys L R (A.set k y) i (j + 1) (k + 1)
            (by simp only [List.length_cons] at hcnt ⊢; omega)
            hL (drop_succ_of_drop hR)
            hxs (fun z hz => hys z (List.mem_cons_of_mem y hz))
            (by simp; omega)
          rw [hrec]
          show _ = some (writeRange A k (y :: mergeLists le (x :: xs) ys),
            i + (xs.length + 1), j + (ys.length + 1))
          have e1 : j + 1 + ys.length = j + (ys.length + 1) := by omega
          rw [writeRange, e1]
          simp

lemma mergeScan_frame {L R : List α} :
    ∀ (cnt i j k : Nat) (A A2 : List α) (i2 j2 : Nat),
      mergeScan le L R cnt i j k A = some (A2, i2, j2) →
      A2.length = A.length ∧ A2.take k = A.take k ∧ A2.drop (k + cnt) = A.drop (k + cnt) := by
  intro cnt
  induction cnt with
  | zero =>
    intro i j k A A2 i2 j2 h
    rw [mergeScan] at h
    cases h
    exact ⟨rfl, rfl, rfl⟩
  | succ c ih =>
    intro i j k A A2 i2 j2 h
    rw [mergeScan] at h
    rcases hLi : L[i]? with _ | li
    · simp only [hLi] at h
      cases h
    rcases hRj : R[j]? with _ | rj
    · simp only [hLi, hRj] at h
      cases h
    simp only [hLi, hRj] at h
    have main : ∀ (v : α) (i3 j3 : Nat),
        mergeScan le L R c i3 j3 (k + 1) (A.set k v) = some (A2, i2, j2) →
        A2.length = A.length ∧ A2.take k = A.take k ∧
          A2.drop (k + (c + 1)) = A.drop (k + (c + 1)) := by
      intro v i3 j3 hrec
      have hfr := ih i3 j3 (k + 1) (A.set k v) A2 i2 j2 hrec
      have hlen : A2.length = A.length := by
        rw [hfr.1]; simp
      refine ⟨hlen, ?_, ?_⟩
      · have h1 : A2.take k = (A2.take (k + 1)).take k := by
          rw [List.take_take]
          congr 1
          omega
        rw [h1, hfr.2.1, List.take_take]
        have e1 : min k (k + 1) = k := by omega
        rw [e1, List.set_take]
        apply List.set_eq_of_length_le
        rw [List.length_take]
        omega
      · have e2 : k + 1 + c = k + (c + 1) := by omega
        have h2 := hfr.2.2
        rw [e2] at h2
        rw [h2, List.drop_set, if_pos (by omega)]
    by_cases hcmp : le li rj
    · rw [if_pos hcmp] at h
      rcases hw : wr A k li with _ | A3
      · simp only [hw] at h
        cases h
      simp only [hw] at h
      have hk : k < A.length := by
        by_contra hk
        rw [wr, if_neg hk] at hw
        cases hw
      rw [wr_some hk] at hw
      cases hw
      exact main li (i + 1) j h
    · rw [if_neg hcmp] at h
      rcases hw : wr A k rj with _ | A3
      · simp only [hw] at h
        cases h
      simp only [hw] at h
      have hk : k < A.length := by
        by_contra hk
        rw [wr, if_neg hk] at hw
        cases hw
      rw [wr_some hk] at hw
      cases hw
      exact main rj i (j + 1) h

end ScanLemmas

section MergeLemmas

variable {α : Type} (le : α → α → Prop) [DecidableRel le]

lemma mergeG_spec (sent : α) (A : List α) (p q r : Nat) (hpq : p ≤ q) (hqr : q ≤ r)
    (hr : r < A.length) (hgood : ∀ x ∈ slice A p (r + 1), le x sent ∧ ¬ le sent x) :
    mergeG le sent A p q r =
      some (A.take p ++ mergeLists le (slice A p (q + 1)) (slice A (q + 1) (r + 1)) ++
        A.drop (r + 1)) := by
  have e1 : p + (q - p + 1) = q + 1 := by omega
  have h1 : readRange A p (q - p + 1) = some (slice A p (q + 1)) := by
    rw [readRange_eq _ A p (by omega), e1]
  have e2 : q + 1 + (r - q) = r + 1 := by omega
  have h2 : readRange A (q + 1) (r - q) = some (slice A (q + 1) (r + 1)) := by
    rw [readRange_eq _ A (q + 1) (by omega), e2]
  have hsplit : slice A p (q + 1) ++ slice A (q + 1) (r + 1) = slice A p (r + 1) :=
    slice_append_slice A p (q + 1) (r + 1) (by omega) (by omega)
  have hg1 : ∀ x ∈ slice A p (q + 1), le x sent ∧ ¬ le sent x := by
    intro x hx
    exact hgood x (by rw [← hsplit]; exact List.mem_append_left _ hx)
  have hg2 : ∀ x ∈ slice A (q + 1) (r + 1), le x sent ∧ ¬ le sent x := by
    intro x hx
    exact hgood x (by rw [← hsplit]; exact List.mem_append_right _ hx)
  have hl1 : (slice A p (q + 1)).length = q + 1 - p :=
    length_slice A p (q + 1) (by omega) (by omega)
  have hl2 := length_slice A (q + 1) (r + 1) (by omega) (by omega)
  have hscan := mergeScan_spec le sent (r + 1 - p) (slice A p (q + 1))
    (slice A (q + 1) (r + 1)) (slice A p (q + 1) ++ [sent]) (slice A (q + 1) (r + 1) ++ [sent])
    A 0 0 p (by rw [hl1, hl2]; omega) (by rw [List.drop_zero]) (by rw [List.drop_zero])
    hg1 hg2 (by omega)
  simp only [mergeG, h1, h2, hscan]
  have hM : (mergeLists le (slice A p (q + 1)) (slice A (q + 1) (r + 1))).length = r + 1 - p := by
    rw [mergeLists_length, hl1, hl2]
    omega
  have hw := writeRange_eq (mergeLists le (slice A p (q + 1)) (slice A (q + 1) (r + 1))) A p
    (by rw [hM]; omega)
  rw [hM] at hw
  have e3 : p + (r + 1 - p) = r + 1 := by omega
  rw [e3] at hw
  rw [hw]

lemma mergeG_frame (sent : α) {A A2 : List α} {p q r : Nat}
    (h : mergeG le sent A p q r = some A2) (hpr : p ≤ r + 1) :
    A2.length = A.length ∧ A2.take p = A.take p ∧ A2.drop (r + 1) = A.drop (r + 1) := by
  rw [mergeG] at h
  rcases h1 : readRange A p (q - p + 1) with _ | Lm
  · simp only [h1] at h
    cases h
  simp only [h1] at h
  rcases h2 : readRange A (q + 1) (r - q) with _ | Rm
  · simp only [h2] at h
    cases h
  simp only [h2] at h
  rcases h3 : mergeScan le (Lm ++ [sent]) (Rm ++ [sent]) (r + 1 - p) 0 0 p A with _ | x
  · simp only [h3] at h
    cases h
  simp only [h3] at h
  cases h
  rcases x with ⟨A3, i2, j2⟩
  have hfr := mergeScan_frame le (r + 1 - p) 0 0 p A A3 i2 j2 h3
  have e1 : p + (r + 1 - p) = r + 1 := by omega
  rw [e1] at hfr
  exact hfr

lemma mergeG_oob (sent : α) (A : List α) (p q r : Nat) (hpq : p ≤ q) (hqr : q ≤ r)
    (hlen : A.length ≤ r) : mergeG le sent A p q r = none := by
  by_cases hql : A.length ≤ q
  · have h1 : readRange A p (q - p + 1) = none := readRange_none _ A p (by omega) (by omega)
    simp only [mergeG, h1]
  · have h2 : readRange A (q + 1) (r - q) = none :=
      readRange_none _ A (q + 1) (by omega) (by omega)
    simp only [mergeG, h2]
    cases readRange A p (q - p + 1) <;> rfl

lemma merge_lazyG_spec (A : List α) (p q r : Nat) (hpq : p ≤ q + 1) (hqr : q ≤ r)
    (hr : r < A.length) :
    merge_lazyG le A p q r =
      some (A.take p ++ mergeLists le (slice A p (q + 1)) (slice A (q + 1) (r + 1)) ++
        A.drop (r + 1)) := by
  rw [merge_lazyG, if_pos ⟨hpq, hqr, hr⟩]

lemma merge_lazyG_oob (A : List α) (p q r : Nat) (hlen : A.length ≤ r) :
    merge_lazyG le A p q r = none := by
  rw [merge_lazyG, if_neg]
  rintro ⟨_, _, h⟩
  omega

lemma merge_lazyG_frame {A A2 : List α} {p q r : Nat}
    (h : merge_lazyG le A p q r = some A2) :
    A2.length = A.length ∧ A2.take p = A.take p ∧ A2.drop (r + 1) = A.drop (r + 1) := by
  rw [merge_lazyG] at h
  by_cases hg : p ≤ q + 1 ∧ q ≤ r ∧ r < A.length
  · rw [if_pos hg] at h
    rcases hg with ⟨hpq, hqr, hr⟩
    have hM : (mergeLists le (slice A p (q + 1)) (slice A (q + 1) (r + 1))).length =
        r + 1 - p := by
      rw [mergeLists_length, length_slice A p (q + 1) (by omega) (by omega),
        length_slice A (q + 1) (r + 1) (by omega) (by omega)]
      omega
    have hglue := glue_spec A (mergeLists le (slice A p (q + 1)) (slice A (q + 1) (r + 1)))
      p r (by omega) hr hM
    cases h
    exact ⟨hglue.1, hglue.2.1, hglue.2.2.1⟩
  · rw [if_neg hg] at h
    cases h

end MergeLemmas

section SortLemmas

variable {α : Type} (le : α → α → Prop) [DecidableRel le]

lemma take_mono_eq {A B : List α} {a b : Nat} (h : A.take b = B.take b) (hab : a ≤ b) :
    A.take a = B.take a := by
  have h2 := congrArg (List.take a) h
  rwa [List.take_take, List.take_take, min_eq_left hab] at h2

lemma drop_mono_eq {A B : List α} {a b : Nat} (h : A.drop a = B.drop a) (hab : a ≤ b) :
    A.drop b = B.drop b := by
  have h2 := congrArg (List.drop (b - a)) h
  rwa [List.drop_drop, List.drop_drop, (by omega : a + (b - a) = b)] at h2

lemma pairwise_short (l : List α) (n : Nat) (hn : n ≤ 1) : (l.take n).Pairwise le := by
  rcases Nat.le_one_iff_eq_zero_or_eq_one.mp hn with h | h
  · subst h
    simp
  · subst h
    cases l with
    | nil => simp
    | cons x t => simp

lemma sortWith_stop (f : List α → Nat → Nat → Nat → Option (List α)) (A : List α)
    {p r : Nat} (h : ¬ p < r) : sortWith f A p r = some A := by
  rw [sortWith, dif_neg h]

lemma sortWith_step (f : List α → Nat → Nat → Nat → Option (List α)) (A : List α)
    {p r : Nat} (h : p < r) :
    sortWith f A p r =
      match sortWith f A p ((p + r) / 2) with
      | none => none
      | some A1 =>
        match sortWith f A1 ((p + r) / 2 + 1) r with
        | none => none
        | some A2 => f A2 p ((p + r) / 2) r := by
  rw [sortWith]
  rw [dif_pos h]

lemma sortWith_frame (f : List α → Nat → Nat → Nat → Option (List α))
    (hfr : ∀ (A A2 : List α) (p q r : Nat), p ≤ q → q ≤ r → f A p q r = some A2 →
      A2.length = A.length ∧ A2.take p = A.take p ∧ A2.drop (r + 1) = A.drop (r + 1)) :
    ∀ (n : Nat) (A : List α) (p r : Nat) (A2 : List α), n = r - p →
      sortWith f A p r = some A2 →
      A2.length = A.length ∧ A2.take p = A.take p ∧ A2.drop (r + 1) = A.drop (r + 1) := by
  intro n
  induction n using Nat.strong_induction_on with
  | _ n ih =>
    intro A p r A2 hn h
    by_cases hpr : p < r
    · rw [sortWith_step f A hpr] at h
      rcases hs1 : sortWith f A p ((p + r) / 2) with _ | A1
      · simp only [hs1] at h
        cases h
      simp only [hs1] at h
      rcases hs2 : sortWith f A1 ((p + r) / 2 + 1) r with _ | A3
      · simp only [hs2] at h
        cases h
      simp only [hs2] at h
      have hq1 : p ≤ (p + r) / 2 := by omega
      have hq2 : (p + r) / 2 < r := by omega
      have hfr1 := ih ((p + r) / 2 - p) (by omega) A p ((p + r) / 2) A1 rfl hs1
      have hfr2 := ih (r - ((p + r) / 2 + 1)) (by omega) A1 ((p + r) / 2 + 1) r A3 rfl hs2
      have hfr3 := hfr A3 A2 p ((p + r) / 2) r hq1 (by omega) h
      refine ⟨by rw [hfr3.1, hfr2.1, hfr1.1], ?_, ?_⟩
      · rw [hfr3.2.1, take_mono_eq hfr2.2.1 (by omega), take_mono_eq hfr1.2.1 (by omega)]
      · rw [hfr3.2.2, hfr2.2.2, drop_mono_eq hfr1.2.2 (by omega)]
    · rw [sortWith_stop f A hpr] at h
      cases h
      exact ⟨rfl, rfl, rfl⟩

lemma sortWith_correct (f : List α → Nat → Nat → Nat → Option (List α)) (good : α → Prop)
    (htot : ∀ a b : α, le a b ∨ le b a)
    (htrans : ∀ a b c : α, le a b → le b c → le a c)
    (hf : ∀ (A : List α) (p q r : Nat), p ≤ q → q ≤ r → r < A.length →
      (∀ x ∈ A, good x) →
      f A p q r = some (A.take p ++
        mergeLists le (slice A p (q + 1)) (slice A (q + 1) (r + 1)) ++ A.drop (r + 1))) :
    ∀ (n : Nat) (A : List α) (p r : Nat), n = r - p → r < A.length → (∀ x ∈ A, good x) →
      ∃ A2, sortWith f A p r = some A2 ∧ A2.Perm A ∧
        A2.take p = A.take p ∧ A2.drop (r + 1) = A.drop (r + 1) ∧
        (slice A2 p (r + 1)).Perm (slice A p (r + 1)) ∧
        (slice A2 p (r + 1)).Pairwise le := by
  intro n
  induction n using Nat.strong_induction_on with
  | _ n ih =>
    intro A p r hn hr hgood
    by_cases hpr : p < r
    case neg =>
      refine ⟨A, sortWith_stop f A hpr, List.Perm.refl A, rfl, rfl, List.Perm.refl _, ?_⟩
      rw [slice]
      exact pairwise_short le _ _ (by omega)
    case pos =>
      have hq1 : p ≤ (p + r) / 2 := by omega
      have hq2 : (p + r) / 2 < r := by omega
      obtain ⟨A1, hs1, hperm1, htake1, hdrop1, hsl1, hsort1⟩ :=
        ih ((p + r) / 2 - p) (by omega) A p ((p + r) / 2) rfl (by omega) hgood
      have h1len : A1.length = A.length := hperm1.length_eq
      have good1 : ∀ x ∈ A1, good x := fun x hx => hgood x (hperm1.mem_iff.mp hx)
      obtain ⟨A2, hs2, hperm2, htake2, hdrop2, hsl2, hsort2⟩ :=
        ih (r - ((p + r) / 2 + 1)) (by omega) A1 ((p + r) / 2 + 1) r rfl (by omega) good1
      have h2len : A2.length = A1.length := hperm2.length_eq
      have good2 : ∀ x ∈ A2, good x := fun x hx => good1 x (hperm2.mem_iff.mp hx)
      have hm := hf A2 p ((p + r) / 2) r hq1 (by omega) (by omega) good2
      have sA2l : slice A2 p ((p + r) / 2 + 1) = slice A1 p ((p + r) / 2 + 1) :=
        slice_congr_take htake2
      have sA1r : slice A1 ((p + r) / 2 + 1) (r + 1) = slice A ((p + r) / 2 + 1) (r + 1) :=
        slice_congr_drop hdrop1 (Nat.le_refl _)
      have Msorted : (mergeLists le (slice A2 p ((p + r) / 2 + 1))
          (slice A2 ((p + r) / 2 + 1) (r + 1))).Pairwise le := by
        apply mergeLists_sorted le htot htrans
        · rw [sA2l]
          exact hsort1
        · exact hsort2
      have Mperm : (mergeLists le (slice A2 p ((p + r) / 2 + 1))
          (slice A2 ((p + r) / 2 + 1) (r + 1))).Perm (slice A p (r + 1)) := by
        refine (mergeLists_perm le _ _).trans ?_
        have hl : (slice A2 p ((p + r) / 2 + 1)).Perm (slice A p ((p + r) / 2 + 1)) := by
          rw [sA2l]
          exact hsl1
        have hrr : (slice A2 ((p + r) / 2 + 1) (r + 1)).Perm
            (slice A ((p + r) / 2 + 1) (r + 1)) := by
          rw [← sA1r]
          exact hsl2
        refine (hl.append hrr).trans ?_
        rw [slice_append_slice A p ((p + r) / 2 + 1) (r + 1) (by omega) (by omega)]
      have hM : (mergeLists le (slice A2 p ((p + r) / 2 + 1))
          (slice A2 ((p + r) / 2 + 1) (r + 1))).length = r + 1 - p := by
        rw [Mperm.length_eq, length_slice A p (r + 1) (by omega) (by omega)]
      have hglue := glue_spec A2
        (mergeLists le (slice A2 p ((p + r) / 2 + 1)) (slice A2 ((p + r) / 2 + 1) (r + 1)))
        p r (by omega) (by omega) hM
      have tA2p : A2.take p = A.take p := by
        rw [take_mono_eq htake2 (by omega), htake1]
      have dA2r : A2.drop (r + 1) = A.drop (r + 1) := by
        rw [hdrop2, drop_mono_eq hdrop1 (by omega)]
      refine ⟨A2.take p ++ mergeLists le (slice A2 p ((p + r) / 2 + 1))
        (slice A2 ((p + r) / 2 + 1) (r + 1)) ++ A2.drop (r + 1), ?_, ?_, ?_, ?_, ?_, ?_⟩
      · rw [sortWith_step f A hpr]
        simp only [hs1, hs2, hm]
      · have hB : A2.take p ++ mergeLists le (slice A2 p ((p + r) / 2 + 1))
            (slice A2 ((p + r) / 2 + 1) (r + 1)) ++ A2.drop (r + 1) =
            A.take p ++ mergeLists le (slice A2 p ((p + r) / 2 + 1))
            (slice A2 ((p + r) / 2 + 1) (r + 1)) ++ A.drop (r + 1) := by
          rw [tA2p, dA2r]
        rw [hB]
        have h1 : (A.take p ++ mergeLists le (slice A2 p ((p + r) / 2 + 1))
            (slice A2 ((p + r) / 2 + 1) (r + 1)) ++ A.drop (r + 1)).Perm
            (A.take p ++ slice A p (r + 1) ++ A.drop (r + 1)) :=
          ((List.Perm.refl _).append Mperm).append (List.Perm.refl _)
        rw [← decomp_slice A p (r + 1) (by omega)] at h1
        exact h1
      · rw [hglue.2.1, tA2p]
      · rw [hglue.2.2.1, dA2r]
      · rw [hglue.2.2.2]
        exact Mperm
      · rw [hglue.2.2.2]
        exact Msorted

lemma sortWith_eq_of_spec (f1 f2 : List α → Nat → Nat → Nat → Option (List α))
    (good : α → Prop)
    (htot : ∀ a b : α, le a b ∨ le b a)
    (htrans : ∀ a b c : α, le a b → le b c → le a c)
    (hf1 : ∀ (A : List α) (p q r : Nat), p ≤ q → q ≤ r → r < A.length →
      (∀ x ∈ A, good x) →
      f1 A p q r = some (A.take p ++
        mergeLists le (slice A p (q + 1)) (slice A (q + 1) (r + 1)) ++ A.drop (r + 1)))
    (hf2 : ∀ (A : List α) (p q r : Nat), p ≤ q → q ≤ r → r < A.length →
      (∀ x ∈ A, good x) →
      f2 A p q r = some (A.take p ++
        mergeLists le (slice A p (q + 1)) (slice A (q + 1) (r + 1)) ++ A.drop (r + 1))) :
    ∀ (n : Nat) (A : List α) (p r : Nat), n = r - p → r < A.length → (∀ x ∈ A, good x) →
      sortWith f1 A p r = sortWith f2 A p r := by
  intro n
  induction n using Nat.strong_induction_on with
  | _ n ih =>
    intro A p r hn hr hgood
    by_cases hpr : p < r
    case neg => rw [sortWith_stop f1 A hpr, sortWith_stop f2 A hpr]
    case pos =>
      obtain ⟨A1, hs1, hperm1, _, _, _, _⟩ :=
        sortWith_correct le f1 good htot htrans hf1 ((p + r) / 2 - p) A p ((p + r) / 2)
          rfl (by omega) hgood
      have heq1 : sortWith f2 A p ((p + r) / 2) = some A1 := by
        rw [← ih ((p + r) / 2 - p) (by omega) A p ((p + r) / 2) rfl (by omega) hgood]
        exact hs1
      have good1 : ∀ x ∈ A1, good x := fun x hx => hgood x (hperm1.mem_iff.mp hx)
      have h1len : A1.length = A.length := hperm1.length_eq
      obtain ⟨A2, hs2, hperm2, _, _, _, _⟩ :=
        sortWith_correct le f1 good htot htrans hf1 (r - ((p + r) / 2 + 1)) A1
          ((p + r) / 2 + 1) r rfl (by omega) good1
      have heq2 : sortWith f2 A1 ((p + r) / 2 + 1) r = some A2 := by
        rw [← ih (r - ((p + r) / 2 + 1)) (by omega) A1 ((p + r) / 2 + 1) r rfl
          (by omega) good1]
        exact hs2
      have good2 : ∀ x ∈ A2, good x := fun x hx => good1 x (hperm2.mem_iff.mp hx)
      have h2len : A2.length = A1.length := hperm2.length_eq
      rw [sortWith_step f1 A hpr, sortWith_step f2 A hpr]
      simp only [hs1, heq1, hs2, heq2]
      rw [hf1 A2 p ((p + r) / 2) r (by omega) (by omega) (by omega) good2,
        hf2 A2 p ((p + r) / 2) r (by omega) (by omega) (by omega) good2]

lemma sortWith_nil (f : List α → Nat → Nat → Nat → Option (List α))
    (hnil : ∀ p q r : Nat, p ≤ q → q < r → f [] p q r = none) :
    ∀ (n p r : Nat), n = r - p → p < r → sortWith f ([] : List α) p r = none := by
  intro n
  induction n using Nat.strong_induction_on with
  | _ n ih =>
    intro p r hn hpr
    have hq1 : p ≤ (p + r) / 2 := by omega
    have hq2 : (p + r) / 2 < r := by omega
    rw [sortWith_step f [] hpr]
    by_cases hpq : p < (p + r) / 2
    · simp only [ih ((p + r) / 2 - p) (by omega) p ((p + r) / 2) rfl hpq]
    · simp only [sortWith_stop f ([] : List α) hpq]
      by_cases hqr : (p + r) / 2 + 1 < r
      · simp only [ih (r - ((p + r) / 2 + 1)) (by omega) ((p + r) / 2 + 1) r rfl hqr]
      · simp only [sortWith_stop f ([] : List α) hqr,
          hnil p ((p + r) / 2) r hq1 hq2]

end SortLemmas

section IntBridge

lemma int_good {x : Int} (h : x < INT_MAX) : x ≤ INT_MAX ∧ ¬ INT_MAX ≤ x :=
  ⟨le_of_lt h, not_le.mpr h⟩

lemma merge_spec_int (A : List Int) (p q r : Nat) (hpq : p ≤ q) (hqr : q ≤ r)
    (hr : r < A.length) (hgood : ∀ x ∈ slice A p (r + 1), x < INT_MAX) :
    merge A p q r =
      some (A.take p ++ mergeLists (· ≤ ·) (slice A p (q + 1)) (slice A (q + 1) (r + 1)) ++
        A.drop (r + 1)) := by
  rw [merge]
  exact mergeG_spec (· ≤ ·) INT_MAX A p q r hpq hqr hr
    (fun x hx => int_good (hgood x hx))

lemma merge_hf :
    ∀ (A : List Int) (p q r : Nat), p ≤ q → q ≤ r → r < A.length →
      (∀ x ∈ A, x < INT_MAX) →
      merge A p q r =
        some (A.take p ++ mergeLists (· ≤ ·) (slice A p (q + 1)) (slice A (q + 1) (r + 1)) ++
          A.drop (r + 1)) := by
  intro A p q r h1 h2 h3 h4
  exact merge_spec_int A p q r h1 h2 h3 (fun x hx => h4 x (mem_of_mem_slice hx))

lemma merge_lazy_hf :
    ∀ (A : List Int) (p q r : Nat), p ≤ q → q ≤ r → r < A.length →
      (∀ x ∈ A, True) →
      merge_lazy A p q r =
        some (A.take p ++ mergeLists (· ≤ ·) (slice A p (q + 1)) (slice A (q + 1) (r + 1)) ++
          A.drop (r + 1)) := by
  intro A p q r h1 h2 h3 _
  rw [merge_lazy]
  exact merge_lazyG_spec (· ≤ ·) A p q r (by omega) h2 h3

lemma int_trans : ∀ a b c : Int, a ≤ b → b ≤ c → a ≤ c := fun _ _ _ h1 h2 => le_trans h1 h2

lemma merge_sort_correct (A : List Int) (p r : Nat) (hr : r < A.length)
    (hgood : ∀ x ∈ A, x < INT_MAX) :
    ∃ A2, merge_sort A p r = some A2 ∧ A2.Perm A ∧
      A2.take p = A.take p ∧ A2.drop (r + 1) = A.drop (r + 1) ∧
      (slice A2 p (r + 1)).Perm (slice A p (r + 1)) ∧
      (slice A2 p (r + 1)).Pairwise (· ≤ ·) := by
  have h := sortWith_correct (· ≤ ·) merge (fun x => x < INT_MAX) Int.le_total int_trans
    merge_hf (r - p) A p r rfl hr hgood
  rw [merge_sort]
  exact h

lemma merge_sort_lazy_correct (A : List Int) (p r : Nat) (hr : r < A.length) :
    ∃ A2, merge_sort_lazy A p r = some A2 ∧ A2.Perm A ∧
      A2.take p = A.take p ∧ A2.drop (r + 1) = A.drop (r + 1) ∧
      (slice A2 p (r + 1)).Perm (slice A p (r + 1)) ∧
      (slice A2 p (r + 1)).Pairwise (· ≤ ·) := by
  have h := sortWith_correct (· ≤ ·) merge_lazy (fun _ => True) Int.le_total int_trans
    merge_lazy_hf (r - p) A p r rfl hr (fun _ _ => trivial)
  rw [merge_sort_lazy]
  exact h

end IntBridge

/-- Claim C2 (amended: the elements of the merged range must be strictly below
the sentinel `INT_MAX`; see `claim_C2_cex`): for `low ≤ mid ≤ high < len A`
with both halves sorted non-decreasing and all elements of `A[low..high]`
below `INT_MAX`, `merge A low mid high` succeeds and leaves `A[low..high]`
sorted non-decreasing; and concretely
`merge [1,3,5,2,4,6,8] 0 2 6 = [1,2,3,4,5,6,8]`. -/
theorem claim_C2_merge_sorted :
    (∀ (A : List Int) (low mid high : Nat), low ≤ mid → mid ≤ high → high < A.length →
      (∀ x ∈ slice A low (high + 1), x < INT_MAX) →
      (slice A low (mid + 1)).Sorted (· ≤ ·) →
      (slice A (mid + 1) (high + 1)).Sorted (· ≤ ·) →
      ∃ A2, merge A low mid high = some A2 ∧ (slice A2 low (high + 1)).Sorted (· ≤ ·)) ∧
    merge [1, 3, 5, 2, 4, 6, 8] 0 2 6 = some [1, 2, 3, 4, 5, 6, 8] := by
  constructor
  · intro A low mid high h1 h2 h3 hgood hs1 hs2
    refine ⟨_, merge_spec_int A low mid high h1 h2 h3 hgood, ?_⟩
    have hM : (mergeLists (· ≤ ·) (slice A low (mid + 1))
        (slice A (mid + 1) (high + 1))).length = high + 1 - low := by
      rw [mergeLists_length, length_slice A low (mid + 1) (by omega) (by omega),
        length_slice A (mid + 1) (high + 1) (by omega) (by omega)]
      omega
    have hglue := glue_spec A
      (mergeLists (· ≤ ·) (slice A low (mid + 1)) (slice A (mid + 1) (high + 1)))
      low high (by omega) h3 hM
    show (slice (A.take low ++ _ ++ A.drop (high + 1)) low (high + 1)).Pairwise (· ≤ ·)
    rw [hglue.2.2.2]
    exact mergeLists_sorted (· ≤ ·) Int.le_total int_trans _ _ hs1 hs2
  · decide

/-- Claim C2 counterexample: with `A = [0, INT_MAX, INT_MAX]`, `low = 0`,
`mid = 0`, `high = 2`, both halves `[0]` and `[INT_MAX, INT_MAX]` are sorted
and the indices are in bounds, yet the scan reads past the end of the left
scratch buffer (undefined behaviour in the C++ source, `none` here), so the
claim as stated — with no restriction on element values — is false. -/
theorem claim_C2_cex :
    (slice [0, INT_MAX, INT_MAX] 0 1).Sorted (· ≤ ·) ∧
    (slice [0, INT_MAX, INT_MAX] 1 3).Sorted (· ≤ ·) ∧
    merge [0, INT_MAX, INT_MAX] 0 0 2 = none := by
  refine ⟨?_, ?_, ?_⟩ <;> decide

/-- Witness for `claim_C2_merge_sorted` at the concrete input
`A = [2, 1]`, `low = 0`, `mid = 0`, `high = 1`. -/
theorem claim_C2_witness :
    (1 : Nat) < ([2, 1] : List Int).length ∧
    ∃ A2, merge [2, 1] 0 0 1 = some A2 ∧ (slice A2 0 2).Sorted (· ≤ ·) :=
  ⟨by decide, claim_C2_merge_sorted.1 [2, 1] 0 0 1 (by decide) (by decide) (by decide)
    (by decide) (by decide) (by decide)⟩

/-- Claim C3 (amended: the guarantee needs every element of the merged range
strictly below `INT_MAX`, not "all element values"; see `claim_C3_cex`):
under that amendment the scan of `merge(A, low, mid, high)` completes all its
`high - low + 1` iterations without any out-of-bounds buffer read (success of
`mergeScan`, whose every read is then within the sentinel slot), performs one
write per iteration — the final cursors add up to `high - low + 1` — and the
cursors never pass the sentinel slots: they end exactly at `n1 = mid - low + 1`
and `n2 = high - mid` (cursors only ever grow). -/
theorem claim_C3_scan_bounded :
    ∀ (A : List Int) (low mid high : Nat), low ≤ mid → mid ≤ high → high < A.length →
      (∀ x ∈ slice A low (high + 1), x < INT_MAX) →
      (slice A low (mid + 1)).Sorted (· ≤ ·) →
      (slice A (mid + 1) (high + 1)).Sorted (· ≤ ·) →
      ∃ W i2 j2,
        mergeScan (· ≤ ·) (slice A low (mid + 1) ++ [INT_MAX])
          (slice A (mid + 1) (high + 1) ++ [INT_MAX]) (high + 1 - low) 0 0 low A =
          some (W, i2, j2) ∧
        i2 + j2 = high - low + 1 ∧ i2 ≤ mid - low + 1 ∧ j2 ≤ high - mid := by
  intro A low mid high h1 h2 h3 hgood _ _
  have hsplit : slice A low (mid + 1) ++ slice A (mid + 1) (high + 1) =
      slice A low (high + 1) :=
    slice_append_slice A low (mid + 1) (high + 1) (by omega) (by omega)
  have hl1 := length_slice A low (mid + 1) (by omega) (by omega)
  have hl2 := length_slice A (mid + 1) (high + 1) (by omega) (by omega)
  have hscan := mergeScan_spec (· ≤ ·) INT_MAX (high + 1 - low) (slice A low (mid + 1))
    (slice A (mid + 1) (high + 1)) (slice A low (mid + 1) ++ [INT_MAX])
    (slice A (mid + 1) (high + 1) ++ [INT_MAX]) A 0 0 low
    (by rw [hl1, hl2]; omega) (by rw [List.drop_zero]) (by rw [List.drop_zero])
    (fun x hx => int_good (hgood x (by rw [← hsplit]; exact List.mem_append_left _ hx)))
    (fun x hx => int_good (hgood x (by rw [← hsplit]; exact List.mem_append_right _ hx)))
    (by omega)
  refine ⟨_, _, _, hscan, ?_, ?_, ?_⟩
  · rw [hl1, hl2]; omega
  · rw [hl1]; omega
  · rw [hl2]; omega

/-- Claim C3 counterexample: for `A = [0, INT_MAX, INT_MAX]`, `low = 0`,
`mid = 0`, `high = 2` (both halves sorted, indices in bounds), the scan
reads `L[2]`, one slot past the sentinel slot of the left buffer `L[1]` — an
out-of-bounds read, refuting "never reads past ... for all element values". -/
theorem claim_C3_cex :
    (slice [0, INT_MAX, INT_MAX] 0 1).Sorted (· ≤ ·) ∧
    (slice [0, INT_MAX, INT_MAX] 1 3).Sorted (· ≤ ·) ∧
    mergeScan (· ≤ ·) (slice [0, INT_MAX, INT_MAX] 0 1 ++ [INT_MAX])
      (slice [0, INT_MAX, INT_MAX] 1 3 ++ [INT_MAX]) 3 0 0 0 [0, INT_MAX, INT_MAX] =
      none := by
  refine ⟨?_, ?_, ?_⟩ <;> decide

/-- Witness for `claim_C3_scan_bounded` at `A = [2, 1]`, `low = 0`, `mid = 0`,
`high = 1`. -/
theorem claim_C3_witness :
    (1 : Nat) < ([2, 1] : List Int).length ∧
    ∃ W i2 j2,
      mergeScan (· ≤ ·) (slice [2, 1] 0 1 ++ [INT_MAX]) (slice [2, 1] 1 2 ++ [INT_MAX])
        2 0 0 0 [2, 1] = some (W, i2, j2) ∧
      i2 + j2 = 2 ∧ i2 ≤ 1 ∧ j2 ≤ 1 :=
  ⟨by decide, claim_C3_scan_bounded [2, 1] 0 0 1 (by decide) (by decide) (by decide)
    (by decide) (by decide) (by decide)⟩

/-- Claim C10: when `p ≤ q ≤ r < len A` and every element of `A[p..r]` is
strictly below `INT_MAX`, the merge scan succeeds with final cursors exactly
`n1 = q - p + 1` and `n2 = r - q` (the cursors only grow, so `i ≤ n1` and
`j ≤ n2` hold throughout and every `L[i]`/`R[j]` access is inside its
buffer), and the resulting range still consists of values below `INT_MAX`,
i.e. the sentinel is never written back into `A`. -/
theorem claim_C10_cursor_bounds :
    ∀ (A : List Int) (p q r : Nat), p ≤ q → q ≤ r → r < A.length →
      (∀ x ∈ slice A p (r + 1), x < INT_MAX) →
      ∃ A2, merge A p q r = some A2 ∧
        mergeScan (· ≤ ·) (slice A p (q + 1) ++ [INT_MAX])
          (slice A (q + 1) (r + 1) ++ [INT_MAX]) (r + 1 - p) 0 0 p A =
          some (slice A2 p (r + 1) |> writeRange A p, q - p + 1, r - q) ∧
        (∀ x ∈ slice A2 p (r + 1), x < INT_MAX) := by
  intro A p q r h1 h2 h3 hgood
  have hsplit : slice A p (q + 1) ++ slice A (q + 1) (r + 1) = slice A p (r + 1) :=
    slice_append_slice A p (q + 1) (r + 1) (by omega) (by omega)
  have hl1 := length_slice A p (q + 1) (by omega) (by omega)
  have hl2 := length_slice A (q + 1) (r + 1) (by omega) (by omega)
  have hm := merge_spec_int A p q r h1 h2 h3 hgood
  have hM : (mergeLists (· ≤ ·) (slice A p (q + 1)) (slice A (q + 1) (r + 1))).length =
      r + 1 - p := by
    rw [mergeLists_length, hl1, hl2]
    omega
  have hglue := glue_spec A
    (mergeLists (· ≤ ·) (slice A p (q + 1)) (slice A (q + 1) (r + 1))) p r (by omega) h3 hM
  have hscan := mergeScan_spec (· ≤ ·) INT_MAX (r + 1 - p) (slice A p (q + 1))
    (slice A (q + 1) (r + 1)) (slice A p (q + 1) ++ [INT_MAX])
    (slice A (q + 1) (r + 1) ++ [INT_MAX]) A 0 0 p
    (by rw [hl1, hl2]; omega) (by rw [List.drop_zero]) (by rw [List.drop_zero])
    (fun x hx => int_good (hgood x (by rw [← hsplit]; exact List.mem_append_left _ hx)))
    (fun x hx => int_good (hgood x (by rw [← hsplit]; exact List.mem_append_right _ hx)))
    (by omega)
  refine ⟨_, hm, ?_, ?_⟩
  · rw [hscan, hglue.2.2.2]
    have e1 : 0 + (slice A p (q + 1)).length = q - p + 1 := by rw [hl1]; omega
    have e2 : 0 + (slice A (q + 1) (r + 1)).length = r - q := by rw [hl2]; omega
    rw [e1, e2]
  · intro x hx
    rw [hglue.2.2.2] at hx
    rcases (mem_mergeLists (· ≤ ·)).mp hx with hx | hx
    · exact hgood x (by rw [← hsplit]; exact List.mem_append_left _ hx)
    · exact hgood x (by rw [← hsplit]; exact List.mem_append_right _ hx)

/-- Witness for `claim_C10_cursor_bounds` at `A = [2, 1]`, `p = 0`, `q = 0`,
`r = 1`. -/
theorem claim_C10_witness :
    (1 : Nat) < ([2, 1] : List Int).length ∧
    ∃ A2, merge [2, 1] 0 0 1 = some A2 ∧
      mergeScan (· ≤ ·) (slice [2, 1] 0 1 ++ [INT_MAX]) (slice [2, 1] 1 2 ++ [INT_MAX])
        2 0 0 0 [2, 1] = some (slice A2 0 2 |> writeRange [2, 1] 0, 1, 1) ∧
      (∀ x ∈ slice A2 0 2, x < INT_MAX) :=
  ⟨by decide, claim_C10_cursor_bounds [2, 1] 0 0 1 (by decide) (by decide) (by decide)
    (by decide)⟩

section FrameHelpers

variable {α : Type}

lemma frame_pointwise {A A2 : List α} {p r : Nat} (ht : A2.take p = A.take p)
    (hd : A2.drop (r + 1) = A.drop (r + 1)) :
    ∀ t, t < p ∨ r < t → A2[t]? = A[t]? := by
  intro t htp
  rcases htp with htp | htp
  · rw [← List.getElem?_take_of_lt htp, ht, List.getElem?_take_of_lt htp]
  · have e : (r + 1) + (t - (r + 1)) = t := by omega
    rw [← e, ← List.getElem?_drop, hd, List.getElem?_drop]

lemma merge_frame_int {A A2 : List Int} {p q r : Nat} (hpq : p ≤ q) (hqr : q ≤ r)
    (h : merge A p q r = some A2) :
    A2.length = A.length ∧ A2.take p = A.take p ∧ A2.drop (r + 1) = A.drop (r + 1) := by
  rw [merge] at h
  exact mergeG_frame (· ≤ ·) INT_MAX h (by omega)

lemma merge_lazy_frame_int {A A2 : List Int} {p q r : Nat}
    (h : merge_lazy A p q r = some A2) :
    A2.length = A.length ∧ A2.take p = A.take p ∧ A2.drop (r + 1) = A.drop (r + 1) := by
  rw [merge_lazy] at h
  exact merge_lazyG_frame (· ≤ ·) h

end FrameHelpers

/-- Claim C7: whenever `merge`, `merge_lazy`, `merge_sort` or `merge_sort_lazy`
completes (returns a value rather than hitting undefined behaviour), the
length of the sequence is unchanged and every element at an index outside
`[low, high]` is unchanged. -/
theorem claim_C7_frame :
    (∀ (A A2 : List Int) (low mid high : Nat), low ≤ mid → mid ≤ high →
      merge A low mid high = some A2 →
      A2.length = A.length ∧ ∀ t, t < low ∨ high < t → A2[t]? = A[t]?) ∧
    (∀ (A A2 : List Int) (low mid high : Nat), merge_lazy A low mid high = some A2 →
      A2.length = A.length ∧ ∀ t, t < low ∨ high < t → A2[t]? = A[t]?) ∧
    (∀ (A A2 : List Int) (low high : Nat), merge_sort A low high = some A2 →
      A2.length = A.length ∧ ∀ t, t < low ∨ high < t → A2[t]? = A[t]?) ∧
    (∀ (A A2 : List Int) (low high : Nat), merge_sort_lazy A low high = some A2 →
      A2.length = A.length ∧ ∀ t, t < low ∨ high < t → A2[t]? = A[t]?) := by
  refine ⟨?_, ?_, ?_, ?_⟩
  · intro A A2 low mid high h1 h2 h
    obtain ⟨hl, ht, hd⟩ := merge_frame_int h1 h2 h
    exact ⟨hl, frame_pointwise ht hd⟩
  · intro A A2 low mid high h
    obtain ⟨hl, ht, hd⟩ := merge_lazy_frame_int h
    exact ⟨hl, frame_pointwise ht hd⟩
  · intro A A2 low high h
    rw [merge_sort] at h
    obtain ⟨hl, ht, hd⟩ := sortWith_frame merge
      (fun A B p q r h1 h2 hm => merge_frame_int h1 h2 hm)
      (high - low) A low high A2 rfl h
    exact ⟨hl, frame_pointwise ht hd⟩
  · intro A A2 low high h
    rw [merge_sort_lazy] at h
    obtain ⟨hl, ht, hd⟩ := sortWith_frame merge_lazy
      (fun A B p q r _ _ hm => merge_lazy_frame_int hm)
      (high - low) A low high A2 rfl h
    exact ⟨hl, frame_pointwise ht hd⟩

/-- Witness for `claim_C7_frame`: the third conjunct at
`merge_sort [7, 3, 5] 1 2 = some [7, 3, 5]`, leaving index 0 unchanged. -/
theorem claim_C7_witness :
    merge_sort [7, 3, 5] 1 2 = some [7, 3, 5] ∧
    ([7, 3, 5] : List Int).length = ([7, 3, 5] : List Int).length ∧
    ∀ t, t < 1 ∨ 2 < t → ([7, 3, 5] : List Int)[t]? = ([7, 3, 5] : List Int)[t]? := by
  have h : merge_sort [7, 3, 5] 1 2 = some [7, 3, 5] := by
    rw [merge_sort, sortWith_step merge _ (by omega)]
    rw [show ((1 + 2) / 2 : Nat) = 1 from by omega]
    simp only [sortWith_stop merge _ (lt_irrefl 1), sortWith_stop merge _ (lt_irrefl 2)]
    decide
  exact ⟨h, claim_C7_frame.2.2.1 [7, 3, 5] [7, 3, 5] 1 2 h⟩

/-- Claim C6: for every sequence and range, `merge_sort` terminates — the
embedding `sortWith` is a total function defined by well-founded recursion on
`high - low` — because when `low < high` the split `mid = (low + high) / 2`
(integer floor division) satisfies `low ≤ mid < high`, so both recursive
calls, on `[low, mid]` and `[mid+1, high]`, have strictly smaller measure;
the stated unfolding equation exhibits exactly that recursion. -/
theorem claim_C6_termination :
    ∀ (A : List Int) (low high : Nat), low < high →
      (low ≤ (low + high) / 2 ∧ (low + high) / 2 < high ∧
        (low + high) / 2 - low < high - low ∧
        high - ((low + high) / 2 + 1) < high - low) ∧
      merge_sort A low high =
        (merge_sort A low ((low + high) / 2)).bind (fun A1 =>
          (merge_sort A1 ((low + high) / 2 + 1) high).bind (fun A2 =>
            merge A2 low ((low + high) / 2) high)) := by
  intro A low high h
  refine ⟨by omega, ?_⟩
  rw [merge_sort, sortWith_step merge A h]
  simp only [merge_sort]
  rcases h1 : sortWith merge A low ((low + high) / 2) with _ | A1
  · simp only [h1, Option.none_bind]
  · simp only [h1, Option.some_bind]
    rcases h2 : sortWith merge A1 ((low + high) / 2 + 1) high with _ | A2
    · simp only [h2, Option.none_bind]
    · simp only [h2, Option.some_bind]

/-- Witness for `claim_C6_termination` at `A = [1, 2]`, `low = 0`, `high = 1`. -/
theorem claim_C6_witness :
    ((0 : Nat) ≤ (0 + 1) / 2 ∧ (0 + 1) / 2 < 1 ∧ (0 + 1) / 2 - 0 < 1 - 0 ∧
      1 - ((0 + 1) / 2 + 1) < 1 - 0) ∧
    merge_sort [1, 2] 0 1 =
      (merge_sort [1, 2] 0 ((0 + 1) / 2)).bind (fun A1 =>
        (merge_sort A1 ((0 + 1) / 2 + 1) 1).bind (fun A2 =>
          merge A2 0 ((0 + 1) / 2) 1)) :=
  claim_C6_termination [1, 2] 0 1 (by decide)

section EvalHelpers

variable {α : Type} (le : α → α → Prop) [DecidableRel le]

lemma sortWith_pair (f : List α → Nat → Nat → Nat → Option (List α)) (A : List α) (p : Nat) :
    sortWith f A p (p + 1) = f A p p (p + 1) := by
  rw [sortWith_step f A (by omega)]
  have e : (p + (p + 1)) / 2 = p := by omega
  rw [e]
  simp only [sortWith_stop f A (lt_irrefl p), sortWith_stop f A (lt_irrefl (p + 1))]

lemma sortWith_eval (f : List α → Nat → Nat → Nat → Option (List α)) (A A1 A2 : List α)
    (p r : Nat) (h : p < r) (h1 : sortWith f A p ((p + r) / 2) = some A1)
    (h2 : sortWith f A1 ((p + r) / 2 + 1) r = some A2) :
    sortWith f A p r = f A2 p ((p + r) / 2) r := by
  rw [sortWith_step f A h]
  simp only [h1, h2]

end EvalHelpers

/-- Claim C8 (amended: the identical-final-states guarantee additionally
needs every element of the merged range strictly below `INT_MAX`; see
`claim_C8_cex`.  The hypotheses of the claim are kept: in-bounds indices
`low ≤ mid ≤ high < len A` and both halves sorted — exactly the situation in
which `std::merge` inside `merge_lazy` has defined behaviour).  Second
conjunct, the claimed consequence for the sorts: on every in-bounds call
over a sequence whose elements are all strictly below `INT_MAX`,
`merge_sort` and `merge_sort_lazy` are observably equivalent; the proof
follows the shared recursion, where every merge step acts on two sorted
adjacent in-bounds sub-ranges. -/
theorem claim_C8_equivalence :
    (∀ (A : List Int) (low mid high : Nat), low ≤ mid → mid ≤ high → high < A.length →
      (∀ x ∈ slice A low (high + 1), x < INT_MAX) →
      (slice A low (mid + 1)).Sorted (· ≤ ·) →
      (slice A (mid + 1) (high + 1)).Sorted (· ≤ ·) →
      merge A low mid high = merge_lazy A low mid high) ∧
    (∀ (A : List Int) (low high : Nat), high < A.length → (∀ x ∈ A, x < INT_MAX) →
      merge_sort A low high = merge_sort_lazy A low high) := by
  constructor
  · intro A low mid high h1 h2 h3 hgood _ _
    rw [merge_spec_int A low mid high h1 h2 h3 hgood, merge_lazy,
      merge_lazyG_spec (· ≤ ·) A low mid high (by omega) h2 h3]
  · intro A low high hr hg
    rw [merge_sort, merge_sort_lazy]
    exact sortWith_eq_of_spec (· ≤ ·) merge merge_lazy (fun x => x < INT_MAX)
      Int.le_total int_trans merge_hf
      (fun A p q r h1 h2 h3 _ => merge_lazy_hf A p q r h1 h2 h3 (fun _ _ => trivial))
      (high - low) A low high rfl hr hg

/-- Claim C8 counterexample: `A = [5, INT_MAX, INT_MAX]`, `low = 0`, `mid = 0`,
`high = 2` is an in-bounds call with both halves sorted, yet the sentinel
`merge` reads out of bounds (undefined behaviour, `none`) while `merge_lazy`
succeeds — the final states are not identical. -/
theorem claim_C8_cex :
    (slice [5, INT_MAX, INT_MAX] 0 1).Sorted (· ≤ ·) ∧
    (slice [5, INT_MAX, INT_MAX] 1 3).Sorted (· ≤ ·) ∧
    merge [5, INT_MAX, INT_MAX] 0 0 2 = none ∧
    merge_lazy [5, INT_MAX, INT_MAX] 0 0 2 = some [5, INT_MAX, INT_MAX] := by
  refine ⟨?_, ?_, ?_, ?_⟩ <;> decide

/-- Witness for `claim_C8_equivalence` at `A = [2, 1]`: the merge conjunct
at `low = 0`, `mid = 0`, `high = 1` (halves `[2]` and `[1]`, both sorted,
in bounds, elements below `INT_MAX`) and the sort conjunct at the range
`(0, 1)`. -/
theorem claim_C8_witness :
    (1 : Nat) < ([2, 1] : List Int).length ∧
    merge [2, 1] 0 0 1 = merge_lazy [2, 1] 0 0 1 ∧
    merge_sort [2, 1] 0 1 = merge_sort_lazy [2, 1] 0 1 :=
  ⟨by decide,
   claim_C8_equivalence.1 [2, 1] 0 0 1 (by decide) (by decide) (by decide) (by decide)
     (by decide) (by decide),
   claim_C8_equivalence.2 [2, 1] 0 1 (by decide) (by decide)⟩

section EntryHelpers

lemma sizeSub1_pos {n : Nat} (h1 : 0 < n) (h2 : n < 2 ^ 64) : sizeSub1 n = n - 1 := by
  rw [sizeSub1]
  omega

lemma sizeSub1_zero : sizeSub1 0 = 2 ^ 64 - 1 := by
  rw [sizeSub1]
  omega

lemma merge_nil (p q r : Nat) (hpq : p ≤ q) (hqr : q < r) :
    merge [] p q r = none := by
  rw [merge]
  exact mergeG_oob (· ≤ ·) INT_MAX [] p q r hpq (by omega) (by simp)

lemma merge_lazy_nil (p q r : Nat) (hpq : p ≤ q) (hqr : q < r) :
    merge_lazy [] p q r = none := by
  rw [merge_lazy]
  exact merge_lazyG_oob (· ≤ ·) [] p q r (by simp)

lemma merge_sort_nil {p r : Nat} (h : p < r) : merge_sort ([] : List Int) p r = none := by
  rw [merge_sort]
  exact sortWith_nil merge merge_nil (r - p) p r rfl h

lemma merge_sort_lazy_nil {p r : Nat} (h : p < r) :
    merge_sort_lazy ([] : List Int) p r = none := by
  rw [merge_sort_lazy]
  exact sortWith_nil merge_lazy merge_lazy_nil (r - p) p r rfl h

lemma sortEntry_nil : sortEntry ([] : List Int) = none := by
  rw [sortEntry, List.length_nil, sizeSub1_zero]
  exact merge_sort_nil (by decide)

lemma sortEntryLazy_nil : sortEntryLazy ([] : List Int) = none := by
  rw [sortEntryLazy, List.length_nil, sizeSub1_zero]
  exact merge_sort_lazy_nil (by decide)

end EntryHelpers

/-- Claim C4 (amended: the single-element sequence is a no-op, and so is every
call whose range `[low, high]` has `high ≤ low` — but the empty sequence is
not: under the calling convention `sort(S, 0, len(S)-1)` the `size_t` value
`len([]) - 1` wraps to `2^64 - 1`, the base case `low >= high` does not
apply, and the call runs into out-of-bounds reads; see `claim_C4_cex`). -/
theorem claim_C4_base_cases :
    (∀ A : List Int, A.length = 1 → sortEntry A = some A ∧ sortEntryLazy A = some A) ∧
    (∀ (A : List Int) (low high : Nat), high ≤ low →
      merge_sort A low high = some A ∧ merge_sort_lazy A low high = some A) := by
  constructor
  · intro A h
    have e : sizeSub1 A.length = 0 := by
      rw [h, sizeSub1_pos (by omega) (by norm_num)]
  
    constructor
    · rw [sortEntry, e, merge_sort]
      exact sortWith_stop merge A (by omega)
    · rw [sortEntryLazy, e, merge_sort_lazy]
      exact sortWith_stop merge_lazy A (by omega)
  · intro A low high h
    constructor
    · rw [merge_sort]
      exact sortWith_stop merge A (by omega)
    · rw [merge_sort_lazy]
      exact sortWith_stop merge_lazy A (by omega)

/-- Claim C4 counterexample: on the empty sequence the stated calling
convention does not produce `[]` — the call is undefined behaviour (an
out-of-bounds read, `none` in the embedding), for both variants. -/
theorem claim_C4_cex :
    sortEntry [] = none ∧ sortEntry [] ≠ some [] ∧ sortEntryLazy [] = none := by
  refine ⟨sortEntry_nil, ?_, sortEntryLazy_nil⟩
  rw [sortEntry_nil]
  exact fun h => Option.noConfusion h

/-- Witness for `claim_C4_base_cases` at the single-element sequence `[5]`
and at the degenerate range `low = high = 0` of `[3, 4]`. -/
theorem claim_C4_witness :
    (([5] : List Int).length = 1 ∧ sortEntry [5] = some [5] ∧ sortEntryLazy [5] = some [5]) ∧
    ((0 : Nat) ≤ 0 ∧ merge_sort [3, 4] 0 0 = some [3, 4] ∧
      merge_sort_lazy [3, 4] 0 0 = some [3, 4]) :=
  ⟨⟨by decide, claim_C4_base_cases.1 [5] (by decide)⟩,
    ⟨Nat.le_refl 0, claim_C4_base_cases.2 [3, 4] 0 0 (Nat.le_refl 0)⟩⟩

/-- Claim C1 (amended: both variants sort every nonempty sequence — with
fewer than `2^64` elements, as every `vector` has — whose elements are all
strictly below `INT_MAX`; `merge_sort_lazy` needs no bound on the element
values.  The empty sequence fails under the `size_t` calling convention and
`merge_sort` can hit undefined behaviour when `INT_MAX` occurs as data; see
`claim_C1_cex`): `sort(S, 0, len(S)-1)` produces a permutation of `S` that
is sorted in non-decreasing order. -/
theorem claim_C1_sort_correct :
    ∀ S : List Int, 0 < S.length → S.length < 2 ^ 64 →
      ((∀ x ∈ S, x < INT_MAX) →
        ∃ S2, sortEntry S = some S2 ∧ S2.Perm S ∧ S2.Sorted (· ≤ ·)) ∧
      (∃ S3, sortEntryLazy S = some S3 ∧ S3.Perm S ∧ S3.Sorted (· ≤ ·)) := by
  intro S h1 h2
  have e : sizeSub1 S.length = S.length - 1 := sizeSub1_pos h1 h2
  have hfull : ∀ S2 : List Int, S2.length = S.length →
      slice S2 0 (S.length - 1 + 1) = S2 := by
    intro S2 hl
    rw [slice, List.drop_zero]
    have e2 : S.length - 1 + 1 - 0 = S2.length := by omega
    rw [e2, List.take_length]
  constructor
  · intro hgood
    obtain ⟨S2, hs, hperm, _, _, _, hsort⟩ :=
      merge_sort_correct S 0 (S.length - 1) (by omega) hgood
    refine ⟨S2, by rw [sortEntry, e]; exact hs, hperm, ?_⟩
    rw [← hfull S2 hperm.length_eq]
    exact hsort
  · obtain ⟨S3, hs, hperm, _, _, _, hsort⟩ :=
      merge_sort_lazy_correct S 0 (S.length - 1) (by omega)
    refine ⟨S3, by rw [sortEntryLazy, e]; exact hs, hperm, ?_⟩
    rw [← hfull S3 hperm.length_eq]
    exact hsort

/-- Claim C1 counterexample: quantifying over *every* finite sequence fails
twice over.  The empty sequence makes `sort(S, 0, len(S)-1)` wrap in
`size_t` and crash (both variants), and `merge_sort` on the in-range call
`(0, 3)` over `[INT_MAX, 0, INT_MAX, INT_MAX]` reads out of bounds
(undefined behaviour, `none`) instead of producing a sorted permutation. -/
theorem claim_C1_cex :
    sortEntry [] = none ∧ sortEntryLazy [] = none ∧
    merge_sort [INT_MAX, 0, INT_MAX, INT_MAX] 0 3 = none := by
  refine ⟨sortEntry_nil, sortEntryLazy_nil, ?_⟩
  have h01 : sortWith merge [INT_MAX, 0, INT_MAX, INT_MAX] 0 1 =
      some [0, INT_MAX, INT_MAX, INT_MAX] := by
    rw [sortWith_pair merge]
    decide
  have h23 : sortWith merge [0, INT_MAX, INT_MAX, INT_MAX] 2 3 =
      some [0, INT_MAX, INT_MAX, INT_MAX] := by
    have h := sortWith_pair merge [0, INT_MAX, INT_MAX, INT_MAX] 2
    rw [h]
    decide
  rw [merge_sort]
  have h03 := sortWith_eval merge [INT_MAX, 0, INT_MAX, INT_MAX]
    [0, INT_MAX, INT_MAX, INT_MAX] [0, INT_MAX, INT_MAX, INT_MAX] 0 3 (by omega) h01 h23
  rw [h03]
  decide

/-- Witness for `claim_C1_sort_correct` at `S = [3, 1, 2]`. -/
theorem claim_C1_witness :
    (0 : Nat) < ([3, 1, 2] : List Int).length ∧
    ((∀ x ∈ ([3, 1, 2] : List Int), x < INT_MAX) →
      ∃ S2, sortEntry [3, 1, 2] = some S2 ∧ S2.Perm [3, 1, 2] ∧ S2.Sorted (· ≤ ·)) ∧
    (∃ S3, sortEntryLazy [3, 1, 2] = some S3 ∧ S3.Perm [3, 1, 2] ∧ S3.Sorted (· ≤ ·)) :=
  ⟨by decide, claim_C1_sort_correct [3, 1, 2] (by decide) (by norm_num)⟩

/-- Claim C9: `main` merges the fixed sample `[1,3,5,2,4,6,8]` at
`(low, mid, high) = (0, 2, 6)` into `[1,2,3,4,5,6,8]`, sorts the fixed
sample `[31,41,59,26,42,58]` (with `merge_sort_lazy`) into
`[26,31,41,42,58,59]`, writes each resulting sequence to standard output
space-separated (each element followed by one space) with a newline after
each sequence, and returns exit code 0. -/
theorem claim_C9_main_behaviour :
    main = some ("1 2 3 4 5 6 8 \n26 31 41 42 58 59 \n", 0) := by
  have hA : ([31, 41, 59, 26, 42, 58] : List Int) = [31, 41, 59, 26, 42, 58] := rfl
  have s01 : sortWith merge_lazy ([31, 41, 59, 26, 42, 58] : List Int) 0 1 =
      some [31, 41, 59, 26, 42, 58] := by
    rw [sortWith_pair merge_lazy]
    decide
  have s02 : sortWith merge_lazy ([31, 41, 59, 26, 42, 58] : List Int) 0 2 =
      some [31, 41, 59, 26, 42, 58] := by
    have h := sortWith_eval merge_lazy ([31, 41, 59, 26, 42, 58] : List Int)
      [31, 41, 59, 26, 42, 58] [31, 41, 59, 26, 42, 58] 0 2 (by omega) s01
      (sortWith_stop merge_lazy _ (by omega))
    rw [h]
    decide
  have s34 : sortWith merge_lazy ([31, 41, 59, 26, 42, 58] : List Int) 3 4 =
      some [31, 41, 59, 26, 42, 58] := by
    rw [sortWith_pair merge_lazy]
    decide
  have s35 : sortWith merge_lazy ([31, 41, 59, 26, 42, 58] : List Int) 3 5 =
      some [31, 41, 59, 26, 42, 58] := by
    have h := sortWith_eval merge_lazy ([31, 41, 59, 26, 42, 58] : List Int)
      [31, 41, 59, 26, 42, 58] [31, 41, 59, 26, 42, 58] 3 5 (by omega) s34
      (sortWith_stop merge_lazy _ (by omega))
    rw [h]
    decide
  have s05 : merge_sort_lazy [31, 41, 59, 26, 42, 58] 0 5 =
      some [26, 31, 41, 42, 58, 59] := by
    rw [merge_sort_lazy]
    have h := sortWith_eval merge_lazy ([31, 41, 59, 26, 42, 58] : List Int)
      [31, 41, 59, 26, 42, 58] [31, 41, 59, 26, 42, 58] 0 5 (by omega) s02 s35
    rw [h]
    decide
  have hm : merge [1, 3, 5, 2, 4, 6, 8] 0 2 6 = some [1, 2, 3, 4, 5, 6, 8] := by decide
  rw [main]
  simp only [hm, s05]
  decide

section StabilityHelpers

lemma leT_total : ∀ a b : Int × Nat, leT a b ∨ leT b a := fun a b => Int.le_total a.1 b.1

lemma leT_trans : ∀ a b c : Int × Nat, leT a b → leT b c → leT a c :=
  fun _ _ _ h1 h2 => le_trans h1 h2

lemma leT_good {x : Int × Nat} (h : x.1 < INT_MAX) : leT x sentT ∧ ¬ leT sentT x :=
  ⟨le_of_lt h, not_le.mpr h⟩

lemma mergeT_hf :
    ∀ (A : List (Int × Nat)) (p q r : Nat), p ≤ q → q ≤ r → r < A.length →
      (∀ x ∈ A, x.1 < INT_MAX) →
      mergeT A p q r =
        some (A.take p ++ mergeLists leT (slice A p (q + 1)) (slice A (q + 1) (r + 1)) ++
          A.drop (r + 1)) := by
  intro A p q r h1 h2 h3 h4
  rw [mergeT]
  exact mergeG_spec leT sentT A p q r h1 h2 h3
    (fun x hx => leT_good (h4 x (mem_of_mem_slice hx)))

lemma sortT_correct (A : List (Int × Nat)) (p r : Nat) (hr : r < A.length)
    (hgood : ∀ x ∈ A, x.1 < INT_MAX) :
    ∃ A2, sortT A p r = some A2 ∧ A2.Perm A ∧
      A2.take p = A.take p ∧ A2.drop (r + 1) = A.drop (r + 1) ∧
      (slice A2 p (r + 1)).Perm (slice A p (r + 1)) ∧
      (slice A2 p (r + 1)).Pairwise leT := by
  rw [sortT]
  exact sortWith_correct leT mergeT (fun x => x.1 < INT_MAX) leT_total leT_trans
    mergeT_hf (r - p) A p r rfl hr hgood

lemma tagged_keys {A : List Int} (hgood : ∀ v ∈ A, v < INT_MAX) :
    ∀ x ∈ tagged A, x.1 < INT_MAX := by
  intro x hx
  rw [tagged] at hx
  rcases List.mem_map.mp hx with ⟨ia, hia, rfl⟩
  have hsnd : ia.2 ∈ A := by
    have h2 : ia.2 ∈ A.enum.map Prod.snd := List.mem_map_of_mem Prod.snd hia
    rwa [List.enum_map_snd] at h2
  exact hgood ia.2 hsnd

lemma tagged_tags_lt (A : List Int) :
    (tagged A).Pairwise (fun a b : Int × Nat => a.2 < b.2) := by
  have h1 : (List.range A.length).Pairwise (· < ·) := List.pairwise_lt_range _
  rw [← List.enum_map_fst A, List.pairwise_map] at h1
  rw [tagged, List.pairwise_map]
  exact h1

lemma mergeLists_filter (k : Int) :
    ∀ xs ys : List (Int × Nat), xs.Pairwise leT → ys.Pairwise leT →
      (mergeLists leT xs ys).filter (fun a => decide (a.1 = k)) =
        xs.filter (fun a => decide (a.1 = k)) ++ ys.filter (fun a => decide (a.1 = k)) := by
  intro xs
  induction xs with
  | nil =>
    intro ys _ _
    rw [mergeLists_nil]
    simp
  | cons x xs ihx =>
    intro ys
    induction ys with
    | nil =>
      intro _ _
      rw [mergeLists_nil_right]
      simp
    | cons y ys ihy =>
      intro hx hy
      rw [mergeLists_cons]
      by_cases hxy : leT x y
      · rw [if_pos hxy]
        have hrec := ihx (y :: ys) (List.pairwise_cons.mp hx).2 hy
        by_cases hk : x.1 = k
        · simp [List.filter_cons, hk, hrec]
        · simp [List.filter_cons, hk, hrec]
      · rw [if_neg hxy]
        have hyx : y.1 < x.1 := by
          rw [leT] at hxy
          omega
        have hrec := ihy hx (List.pairwise_cons.mp hy).2
        by_cases hk : y.1 = k
        · have hnone : (x :: xs).filter (fun a => decide (a.1 = k)) = [] := by
            rw [List.filter_eq_nil_iff]
            intro a ha
            have hxa : x.1 ≤ a.1 := by
              rcases List.mem_cons.mp ha with h | h
              · cases h
                exact le_refl _
              · exact (List.pairwise_cons.mp hx).1 a h
            simp only [decide_eq_true_eq]
            omega
          simp [List.filter_cons, hk, hrec, hnone]
        · simp [List.filter_cons, hk, hrec]

lemma pairwise_of_filters :
    ∀ l : List (Int × Nat),
      (∀ k : Int, (l.filter (fun a => decide (a.1 = k))).Pairwise
        (fun a b : Int × Nat => a.2 < b.2)) →
      l.Pairwise (fun a b => a.1 = b.1 → a.2 < b.2) := by
  intro l
  induction l with
  | nil => intro _; exact List.Pairwise.nil
  | cons a t ih =>
    intro h
    rw [List.pairwise_cons]
    constructor
    · intro b hb hk
      have h1 := h a.1
      rw [List.filter_cons] at h1
      simp only [decide_eq_true_eq, if_true] at h1
      exact (List.pairwise_cons.mp h1).1 b
        (List.mem_filter.mpr ⟨hb, by simp [hk.symm]⟩)
    · apply ih
      intro k
      have h2 := h k
      rw [List.filter_cons] at h2
      by_cases hak : a.1 = k
      · simp only [hak, decide_eq_true_eq, if_true] at h2
        exact (List.pairwise_cons.mp h2).2
      · rwa [if_neg (by simp [hak])] at h2

lemma sortT_stable :
    ∀ (n : Nat) (A : List (Int × Nat)) (p r : Nat), n = r - p → r < A.length →
      (∀ x ∈ A, x.1 < INT_MAX) →
      ∀ A2, sortT A p r = some A2 →
        ∀ k : Int, (slice A2 p (r + 1)).filter (fun a => decide (a.1 = k)) =
          (slice A p (r + 1)).filter (fun a => decide (a.1 = k)) := by
  intro n
  induction n using Nat.strong_induction_on with
  | _ n ih =>
    intro A p r hn hr hgood A2 hA2 k
    by_cases hpr : p < r
    case neg =>
      rw [sortT, sortWith_stop mergeT A hpr] at hA2
      cases hA2
      rfl
    case pos =>
      rw [sortT, sortWith_step mergeT A hpr] at hA2
      rcases hs1 : sortWith mergeT A p ((p + r) / 2) with _ | A1
      · simp only [hs1] at hA2
        cases hA2
      simp only [hs1] at hA2
      rcases hs2 : sortWith mergeT A1 ((p + r) / 2 + 1) r with _ | A3
      · simp only [hs2] at hA2
        cases hA2
      simp only [hs2] at hA2
      obtain ⟨A1x, hs1x, hperm1, htake1, hdrop1, hslp1, hsort1⟩ :=
        sortT_correct A p ((p + r) / 2) (by omega) hgood
      rw [sortT, hs1] at hs1x
      obtain rfl := Option.some.inj hs1x
      have good1 : ∀ x ∈ A1, x.1 < INT_MAX := fun x hx => hgood x (hperm1.mem_iff.mp hx)
      have h1len : A1.length = A.length := hperm1.length_eq
      obtain ⟨A3x, hs2x, hperm2, htake2, hdrop2, hslp2, hsort2⟩ :=
        sortT_correct A1 ((p + r) / 2 + 1) r (by omega) good1
      rw [sortT, hs2] at hs2x
      obtain rfl := Option.some.inj hs2x
      have good2 : ∀ x ∈ A3, x.1 < INT_MAX := fun x hx => good1 x (hperm2.mem_iff.mp hx)
      have h2len : A3.length = A1.length := hperm2.length_eq
      have hm := mergeT_hf A3 p ((p + r) / 2) r (by omega) (by omega) (by omega) good2
      rw [hm] at hA2
      obtain rfl := Option.some.inj hA2
      have hl1 := length_slice A3 p ((p + r) / 2 + 1) (by omega) (by omega)
      have hl2 := length_slice A3 ((p + r) / 2 + 1) (r + 1) (by omega) (by omega)
      have hM : (mergeLists leT (slice A3 p ((p + r) / 2 + 1))
          (slice A3 ((p + r) / 2 + 1) (r + 1))).length = r + 1 - p := by
        rw [mergeLists_length, hl1, hl2]
        omega
      have hglue := glue_spec A3
        (mergeLists leT (slice A3 p ((p + r) / 2 + 1)) (slice A3 ((p + r) / 2 + 1) (r + 1)))
        p r (by omega) (by omega) hM
      rw [hglue.2.2.2]
      have sA3l : slice A3 p ((p + r) / 2 + 1) = slice A1 p ((p + r) / 2 + 1) :=
        slice_congr_take htake2
      have hfil := mergeLists_filter k (slice A3 p ((p + r) / 2 + 1))
        (slice A3 ((p + r) / 2 + 1) (r + 1)) (by rw [sA3l]; exact hsort1) hsort2
      rw [hfil]
      have hf1 := ih ((p + r) / 2 - p) (by omega) A p ((p + r) / 2) rfl (by omega) hgood
        A1 (by rw [sortT]; exact hs1) k
      have hf2 := ih (r - ((p + r) / 2 + 1)) (by omega) A1 ((p + r) / 2 + 1) r rfl
        (by omega) good1 A3 (by rw [sortT]; exact hs2) k
      rw [sA3l, hf1, hf2]
      have sA1r : slice A1 ((p + r) / 2 + 1) (r + 1) = slice A ((p + r) / 2 + 1) (r + 1) :=
        slice_congr_drop hdrop1 (Nat.le_refl _)
      rw [sA1r, ← List.filter_append,
        slice_append_slice A p ((p + r) / 2 + 1) (r + 1) (by omega) (by omega)]

end StabilityHelpers

/-- Claim C5 (amended: the stability consequence holds provided all element
values are strictly below `INT_MAX`; with `INT_MAX` as data the scan can
write a sentinel copy over an element, destroying even permutation of the
tagged sequence, see `claim_C5_cex`).  First conjunct, exactly as claimed:
at any scan step where the two buffer heads are equal, the element written is
the one from the left buffer, and the left cursor advances.  Second conjunct: running
the same algorithm on elements tagged with their original positions and
compared by key alone (`sortT` over `leT`), the output is a sorted-by-key
permutation of the tagged input in which any two equal-keyed elements appear
in strictly increasing tag order — equal elements keep their input relative
order; the sort is stable. -/
theorem claim_C5_stability :
    (∀ (L R A : List Int) (c i j k : Nat) (x : Int), L[i]? = some x → R[j]? = some x →
      mergeScan (· ≤ ·) L R (c + 1) i j k A =
        (wr A k x).bind (fun A2 => mergeScan (· ≤ ·) L R c (i + 1) j (k + 1) A2)) ∧
    (∀ A : List Int, 0 < A.length → (∀ v ∈ A, v < INT_MAX) →
      ∃ T2, sortT (tagged A) 0 (A.length - 1) = some T2 ∧
        T2.Perm (tagged A) ∧ T2.Pairwise leT ∧
        T2.Pairwise (fun a b => a.1 = b.1 → a.2 < b.2)) := by
  constructor
  · intro L R A c i j k x h1 h2
    rw [mergeScan]
    simp only [h1, h2]
    rw [if_pos (le_refl x)]
    rcases hw : wr A k x with _ | A2
    · simp only [hw, Option.none_bind]
    · simp only [hw, Option.some_bind]
  · intro A h0 hgood
    have hlen : (tagged A).length = A.length := by
      rw [tagged, List.length_map, List.enum_length]
    have hkeys : ∀ x ∈ tagged A, x.1 < INT_MAX := tagged_keys hgood
    obtain ⟨T2, hs, hperm, _, _, _, hsort⟩ :=
      sortT_correct (tagged A) 0 (A.length - 1) (by omega) hkeys
    have hT2len : T2.length = A.length := by rw [hperm.length_eq, hlen]
    have hfull : ∀ (l : List (Int × Nat)), l.length = A.length →
        slice l 0 (A.length - 1 + 1) = l := by
      intro l hl
      rw [slice, List.drop_zero, Nat.sub_zero]
      exact List.take_of_length_le (by omega)
    have hstab := sortT_stable (A.length - 1) (tagged A) 0 (A.length - 1) rfl
      (by omega) hkeys T2 hs
    refine ⟨T2, hs, hperm, ?_, ?_⟩
    · rw [← hfull T2 hT2len]
      exact hsort
    · apply pairwise_of_filters
      intro kk
      have h3 := hstab kk
      rw [hfull T2 hT2len, hfull (tagged A) hlen] at h3
      rw [h3]
      exact (tagged_tags_lt A).filter _

/-- Claim C5 counterexample: tagging the input `[INT_MAX, INT_MAX]` with
positions and running the algorithm keyed on the value, the tie break of the
scan reaches the left sentinel `(INT_MAX, 0)` and writes it over the
element tagged 1: the output `[(INT_MAX, 0), (INT_MAX, 0)]` does not keep
the equal-keyed elements in input order (it is not even a permutation of
the tagged input), so the stated stability fails for unrestricted element
values. -/
theorem claim_C5_cex :
    sortT (tagged [INT_MAX, INT_MAX]) 0 1 = some [(INT_MAX, 0), (INT_MAX, 0)] ∧
    ¬ (([((INT_MAX : Int), (0 : Nat)), (INT_MAX, 0)]).Pairwise
        (fun a b : Int × Nat => a.1 = b.1 → a.2 < b.2)) := by
  constructor
  · have ht : tagged [INT_MAX, INT_MAX] = [(INT_MAX, 0), (INT_MAX, 1)] := by decide
    rw [ht, sortT, sortWith_pair mergeT]
    decide
  · intro h
    have h2 := (List.pairwise_cons.mp h).1 (INT_MAX, 0) (List.mem_cons_self _ _) rfl
    exact absurd h2 (lt_irrefl 0)

/-- Witness for `claim_C5_stability`: the tie-break conjunct at
`L = R = [5]`, `A = [7]`, one remaining iteration, and the stability
conjunct at `A = [2, 1, 2]`. -/
theorem claim_C5_witness :
    (mergeScan (· ≤ ·) ([5] : List Int) [5] 1 0 0 0 [7] =
      (wr ([7] : List Int) 0 5).bind
        (fun A2 => mergeScan (· ≤ ·) ([5] : List Int) [5] 0 1 0 1 A2)) ∧
    ∃ T2, sortT (tagged [2, 1, 2]) 0 2 = some T2 ∧
      T2.Perm (tagged [2, 1, 2]) ∧ T2.Pairwise leT ∧
      T2.Pairwise (fun a b : Int × Nat => a.1 = b.1 → a.2 < b.2) :=
  ⟨claim_C5_stability.1 [5] [5] [7] 0 0 0 0 5 (by decide) (by decide),
   claim_C5_stability.2 [2, 1, 2] (by decide) (by decide)⟩

end MS
